import Mathlib

/-!
# mini-version-control-system: a shallow embedding of `mygit.cpp`

The class `MiniVCS` of `src/mygit.cpp` is translated function by function.

* A `std::string` is a list of characters, one per byte (`Str`).
* The file system below the process's current directory is a value of type
  `Dir`: the list of the directory's entries, in the order in which
  `fs::directory_iterator` enumerates them. A new entry is appended at the
  end of that order. Paths are strings, split at `/`.
* SHA-1 and zlib are external libraries; they enter as the three fields of
  a `Codec`. `time(nullptr)` and the name of the running executable enter as
  arguments.
* `size_t` arithmetic is arithmetic on `Nat` reduced modulo `2 ^ 64`.
* An exception is an `Except.error`. `checkout` and `restoreTree` also return
  the directory as it is when they end, normally or not.
* The recursion of `restoreTree` and the loop of `log` follow digests through
  the object store; they take a bound (`fuel`) as argument.
* The staging index (`add`) and the command line (`main`) are not translated.
-/

namespace MiniVCS

/-! ## Strings -/

/-- A `std::string`: one character per byte. -/
abbrev Str := List Char

instance : Coe String Str := ⟨String.toList⟩

/-- The exceptions the program can raise. -/
inductive Err where
  /-- `runtime_error("Repository already exists")` -/
  | repositoryExists
  /-- `runtime_error("Object not found: " + sha)` -/
  | objectNotFound (sha : Str)
  /-- `runtime_error("File not found: " + path)` -/
  | fileNotFound (path : Str)
  /-- `runtime_error("Invalid flag")` -/
  | invalidFlag
  /-- `runtime_error("Not a tree object")` -/
  | notATree
  /-- `runtime_error("Not a commit object")` -/
  | notACommit
  /-- `runtime_error("Not a blob object")` -/
  | notABlob
  /-- `std::out_of_range`, thrown by `substr` when `pos > size()` -/
  | outOfRange
  /-- `std::invalid_argument`, thrown by `stoll` when no digits are found -/
  | invalidArgument
  /-- `fs::filesystem_error` -/
  | filesystemError
  /-- `std::length_error`, thrown by `string(n, c)` when `n` is too large -/
  | lengthError
  /-- Not an exception of the program: the bound that the model puts on the
  depth of a recursion or on the number of iterations of a loop was reached. -/
  | outOfFuel
  deriving DecidableEq, Repr

deriving instance DecidableEq for Except

/-- `std::string::npos`, the largest `size_t`. -/
def npos : Nat := 2 ^ 64 - 1

/-- `s.find(c)`: index of the first occurrence of `c`, or `npos`. -/
def find (s : Str) (c : Char) : Nat :=
  if s.indexOf c < s.length then s.indexOf c else npos

/-- `s.substr(pos, n)`: throws when `pos > size()`, otherwise the at most `n`
characters from `pos` on (`n = npos` means all of them). -/
def substr (s : Str) (pos n : Nat) : Except Err Str :=
  if s.length < pos then .error .outOfRange
  else .ok (if n = npos then s.drop pos else (s.drop pos).take n)

/-- `s.substr(pos)`, that is `s.substr(pos, npos)`. -/
def substrFrom (s : Str) (pos : Nat) : Except Err Str :=
  substr s pos npos

/-- `std::to_string` of a `size_t`, and `operator<<` of an integer: decimal digits. -/
def to_string (n : Nat) : Str := Nat.toDigits 10 n

/-- A string literal used as a `const char*` operand of `operator+`: the
characters are read up to the first NUL byte. -/
def cstr (lit : Str) : Str := lit.takeWhile (fun c => c ≠ '\x00')

/-- `getline(stream, line)` on a stream holding `s`: the characters before the
first newline. -/
def getline (s : Str) : Str := s.takeWhile (fun c => c ≠ '\n')

/-- The successive results of `while (getline(ss, line))` on a stream holding
`s`: the pieces between newlines; nothing is read after a final newline. -/
def getlines (s : Str) : List Str :=
  match s.splitOn '\n' with
  | [] => []
  | pieces => if pieces.getLast? = some [] then pieces.dropLast else pieces

/-- `isspace` in the "C" locale. -/
def isspace (c : Char) : Bool :=
  c = ' ' ∨ c = '\t' ∨ c = '\n' ∨ c = '\x0b' ∨ c = '\x0c' ∨ c = '\r'

/-- The words that successive `stream >> word` extractions read from a stream
holding `s`: maximal runs of non-space characters. -/
def words (s : Str) : List Str :=
  (s.splitOnP isspace).filter (fun w => w ≠ [])

/-! ## The external libraries -/

/-- SHA-1 (`calculateSHA1`, rendered in hexadecimal) and zlib
(`compressData`, `decompressData`). -/
structure Codec where
  calculateSHA1 : Str → Str
  compressData : Str → Str
  decompressData : Str → Str

/-! ## The file system -/

/-- A file-system node: a regular file with its bytes, or a directory with its
entries in enumeration order. -/
inductive Node where
  | file (bytes : Str)
  | dir (entries : List (Str × Node))

/-- The entries of a directory, in enumeration order. -/
abbrev Dir := List (Str × Node)

mutual
/-- Equality of nodes is decidable. -/
def Node.decEq : (a b : Node) → Decidable (a = b)
  | .file x, .file y =>
    if h : x = y then isTrue (by rw [h]) else isFalse (fun e => h (Node.file.inj e))
  | .file _, .dir _ => isFalse (fun e => Node.noConfusion e)
  | .dir _, .file _ => isFalse (fun e => Node.noConfusion e)
  | .dir x, .dir y =>
    match Node.decEqEntries x y with
    | isTrue h => isTrue (by rw [h])
    | isFalse h => isFalse (fun e => h (Node.dir.inj e))
/-- Equality of lists of entries is decidable. -/
def Node.decEqEntries : (a b : List (Str × Node)) → Decidable (a = b)
  | [], [] => isTrue rfl
  | [], _ :: _ => isFalse (fun e => List.noConfusion e)
  | _ :: _, [] => isFalse (fun e => List.noConfusion e)
  | (n, x) :: r, (m, y) :: s =>
    if h : n = m then
      match Node.decEq x y with
      | isTrue hx =>
        match Node.decEqEntries r s with
        | isTrue hr => isTrue (by rw [h, hx, hr])
        | isFalse hr => isFalse (fun e => hr (List.cons.inj e).2)
      | isFalse hx => isFalse (fun e => hx (Prod.mk.inj (List.cons.inj e).1).2)
    else isFalse (fun e => h (Prod.mk.inj (List.cons.inj e).1).1)
end

instance : DecidableEq Node := Node.decEq

/-- The entry called `name`, if any. -/
def lookup (name : Str) : Dir → Option Node
  | [] => none
  | (n, x) :: rest => if n = name then some x else lookup name rest

/-- Replaces the entry called `name`, or appends it when there is none. -/
def setEntry (name : Str) (x : Node) : Dir → Dir
  | [] => [(name, x)]
  | (n, y) :: rest =>
    if n = name then (n, x) :: rest else (n, y) :: setEntry name x rest

/-- The components of a path string: split at `/`; empty components and `.`
are dropped. (`..` is not interpreted.) -/
def components (path : Str) : List Str :=
  (path.splitOn '/').filter (fun c => c ≠ [] ∧ c ≠ ['.'])

/-- The node a list of components leads to. -/
def resolve : Dir → List Str → Option Node
  | d, [] => some (.dir d)
  | d, name :: rest =>
    match lookup name d with
    | some (.dir sub) => resolve sub rest
    | some (.file b) => if rest = [] then some (.file b) else none
    | none => none

/-- `fs::exists(path)`. -/
def pathExists (cwd : Dir) (path : Str) : Bool :=
  (resolve cwd (components path)).isSome

/-- `fs::is_directory(path)`. -/
def is_directory (cwd : Dir) (path : Str) : Bool :=
  match resolve cwd (components path) with
  | some (.dir _) => true
  | _ => false

/-- The bytes an `ifstream` opened on `path` delivers; `none` when the stream
is in a failed state. A directory at `path` is treated like a missing file;
no statement below rests on that case. -/
def readFile (cwd : Dir) (path : Str) : Option Str :=
  match resolve cwd (components path) with
  | some (.file b) => some b
  | _ => none

/-- `fs::create_directories` on a list of components: creates what is missing,
throws when a component is a regular file. -/
def createDirs : List Str → Dir → Except Err Dir
  | [], d => .ok d
  | name :: rest, d =>
    match lookup name d with
    | some (.file _) => .error .filesystemError
    | some (.dir sub) =>
      match createDirs rest sub with
      | .ok sub1 => .ok (setEntry name (.dir sub1) d)
      | .error e => .error e
    | none =>
      match createDirs rest [] with
      | .ok sub1 => .ok (setEntry name (.dir sub1) d)
      | .error e => .error e

/-- `fs::create_directories(path)`. -/
def create_directories (cwd : Dir) (path : Str) : Except Err Dir :=
  createDirs (components path) cwd

/-- Writing `bytes` through an `ofstream` opened on a list of components. The
file is created or truncated; when it cannot be opened (missing parent
directory, or a directory in its place) nothing is written and nothing is
thrown. -/
def writeAt : List Str → Str → Dir → Dir
  | [], _, d => d
  | [name], bytes, d =>
    match lookup name d with
    | some (.dir _) => d
    | _ => setEntry name (.file bytes) d
  | name :: rest, bytes, d =>
    match lookup name d with
    | some (.dir sub) => setEntry name (.dir (writeAt rest bytes sub)) d
    | _ => d

/-- `ofstream file(path); file << bytes`. -/
def writeFile (cwd : Dir) (path : Str) (bytes : Str) : Dir :=
  writeAt (components path) bytes cwd

/-! ## Constants of the class -/

def GIT_DIR : Str := ".mygit"
def OBJECTS_DIR : Str := GIT_DIR ++ "/objects"
def REFS_DIR : Str := GIT_DIR ++ "/refs"
def HEAD_FILE : Str := GIT_DIR ++ "/HEAD"
def INDEX_FILE : Str := GIT_DIR ++ "/index"

/-! ## Object store -/

/-- The local `store` of `writeObject`: `header + content`, where
`header = type + " " + to_string(content.length()) + "\0"`. -/
def objectStore (type content : Str) : Str :=
  let header := type ++ " " ++ to_string content.length ++ cstr "\x00"
  header ++ content

/-- The second half of `readObject`: splitting the decompressed bytes into
type and content. -/
def splitObject (decompressed : Str) : Except Err (Str × Str) :=
  let null_pos := find decompressed '\x00'
  match substr decompressed 0 null_pos,
        substrFrom decompressed ((null_pos + 1) % 2 ^ 64) with
  | .ok header, .ok content =>
    let len := to_string content.length
    let space_pos := find header ' '
    match substr header 0 space_pos,
          substrFrom content ((space_pos + 1 + len.length) % 2 ^ 64) with
    | .ok type, .ok content1 => .ok (type, content1)
    | .error e, _ => .error e
    | _, .error e => .error e
  | .error e, _ => .error e
  | _, .error e => .error e

/-- The path under which the object `sha` is stored:
`OBJECTS_DIR + "/" + sha.substr(0, 2) + "/" + sha.substr(2)`. -/
def objectPath (sha : Str) : Except Err Str :=
  match substr sha 0 2, substrFrom sha 2 with
  | .ok d, .ok f => .ok (OBJECTS_DIR ++ "/" ++ d ++ "/" ++ f)
  | .error e, _ => .error e
  | _, .error e => .error e

/-- `MiniVCS::writeObject`. -/
def writeObject (cd : Codec) (cwd : Dir) (type content : Str) : Except Err Dir :=
  let store := objectStore type content
  let sha := cd.calculateSHA1 store
  let compressed := cd.compressData store
  match substr sha 0 2, substrFrom sha 2 with
  | .ok d, .ok f =>
    let dir := OBJECTS_DIR ++ "/" ++ d
    let path := dir ++ "/" ++ f
    match create_directories cwd dir with
    | .ok cwd1 => .ok (writeFile cwd1 path compressed)
    | .error e => .error e
  | .error e, _ => .error e
  | _, .error e => .error e

/-- `MiniVCS::readObject`. -/
def readObject (cd : Codec) (cwd : Dir) (sha : Str) : Except Err (Str × Str) :=
  match objectPath sha with
  | .error e => .error e
  | .ok path =>
    match readFile cwd path with
    | none => .error (.objectNotFound sha)
    | some compressed => splitObject (cd.decompressData compressed)

/-- `MiniVCS::hashObject`: the digest, and the directory after the optional
write. -/
def hashObject (cd : Codec) (cwd : Dir) (path : Str) (write : Bool) :
    Except Err (Str × Dir) :=
  match readFile cwd path with
  | none => .error (.fileNotFound path)
  | some content =>
    let header := ("blob " : Str) ++ to_string content.length ++ cstr "\x00"
    let store := header ++ content
    let sha := cd.calculateSHA1 store
    if write then
      match writeObject cd cwd "blob" content with
      | .ok cwd1 => .ok (sha, cwd1)
      | .error e => .error e
    else .ok (sha, cwd)

/-- `MiniVCS::catFile`: what is printed on standard output. -/
def catFile (cd : Codec) (cwd : Dir) (sha : Str) (flag : Char) : Except Err Str :=
  match readObject cd cwd sha with
  | .error e => .error e
  | .ok (type, content) =>
    if flag = 'p' then .ok content
    else if flag = 't' then .ok type
    else if flag = 's' then .ok (to_string content.length)
    else .error .invalidFlag

/-- `MiniVCS::init`. -/
def init (cwd : Dir) : Except Err Dir :=
  if pathExists cwd GIT_DIR then .error .repositoryExists
  else
    match create_directories cwd (GIT_DIR ++ "/objects") with
    | .error e => .error e
    | .ok cwd1 =>
      match create_directories cwd1 (GIT_DIR ++ "/refs/heads") with
      | .error e => .error e
      | .ok cwd2 => .ok (writeFile cwd2 HEAD_FILE "ref: refs/heads/master")

/-! ## Tree codec -/

/-- `fs::is_directory`. -/
def Node.isDirectory : Node → Bool
  | .dir _ => true
  | .file _ => false

mutual
/-- `MiniVCS::writeTree`, run with the given directory as current directory:
the digest of the tree, and the directory afterwards. -/
def writeTreeIn (cd : Codec) : Node → Except Err (Str × Dir)
  | .file _ => .error .filesystemError
  | .dir entries =>
    match writeTreeLoop cd entries entries [] with
    | .error e => .error e
    | .ok (content, cwd1) =>
      match writeObject cd cwd1 "tree" content with
      | .error e => .error e
      | .ok cwd2 =>
        .ok (cd.calculateSHA1
          (("tree " : Str) ++ to_string content.length ++ cstr "\x00" ++ content), cwd2)
/-- The loop of `writeTree` over the enumerated entries; the state is the
current directory and the `tree_content` stream. For a subdirectory the
recursive call runs with that subdirectory as current directory
(`fs::current_path(path)` ... `fs::current_path("..")`). -/
def writeTreeLoop (cd : Codec) : Dir → Dir → Str → Except Err (Str × Dir)
  | [], cwd, tree_content => .ok (tree_content, cwd)
  | (name, node) :: rest, cwd, tree_content =>
    if name = GIT_DIR then writeTreeLoop cd rest cwd tree_content
    else if node.isDirectory then
      match writeTreeIn cd node with
      | .error e => .error e
      | .ok (subtree_sha, sub1) =>
        writeTreeLoop cd rest (setEntry name (.dir sub1) cwd)
          (tree_content ++ "40000 " ++ name ++ " " ++ subtree_sha ++ "\n")
    else
      match hashObject cd cwd (("./" : Str) ++ name) true with
      | .error e => .error e
      | .ok (sha, cwd1) =>
        writeTreeLoop cd rest cwd1
          (tree_content ++ "100644 " ++ name ++ " " ++ sha ++ "\n")
end

/-- `MiniVCS::writeTree` in the current directory `cwd`. -/
def writeTree (cd : Codec) (cwd : Dir) : Except Err (Str × Dir) :=
  writeTreeIn cd (.dir cwd)

/-- The value of `tree_content.str()` in `writeTree`. -/
def treeContent (cd : Codec) (cwd : Dir) : Except Err Str :=
  match writeTreeLoop cd cwd cwd [] with
  | .error e => .error e
  | .ok (content, _) => .ok content

/-- The extraction `stream >> mode >> name >> sha` on one line, starting from
the given values of the three variables: a variable whose extraction fails
keeps its value. -/
def extractEntry (line : Str) (old : Str × Str × Str) : Str × Str × Str :=
  let ws := words line
  (ws.getD 0 old.1, ws.getD 1 old.2.1, ws.getD 2 old.2.2)

/-- The entry parser of `restoreTree`: `mode`, `name` and `sha` are fresh
(empty) strings for each line. -/
def parseEntry (line : Str) : Str × Str × Str :=
  extractEntry line ([], [], [])

/-- The entries that `restoreTree` reads in a tree content. -/
def parseTree (content : Str) : List (Str × Str × Str) :=
  (getlines content).map parseEntry

/-- The loop of `lsTree` over the lines; `mode`, `name` and `hash` are declared
outside the loop and keep their values from line to line. Returns the printed
lines. -/
def lsTreeLoop (nameOnly : Bool) : List Str → Str × Str × Str → Except Err (List Str)
  | [], _ => .ok []
  | line :: rest, old =>
    let (mode, name, hash) := extractEntry line old
    if nameOnly then
      match lsTreeLoop nameOnly rest (mode, name, hash) with
      | .ok out => .ok ((name ++ "\n") :: out)
      | .error e => .error e
    else if 6 < mode.length then .error .lengthError
    else
      let formattedMode := List.replicate (6 - mode.length) '0' ++ mode
      let entryType : Str := if formattedMode = "040000" then "tree" else "blob"
      match lsTreeLoop nameOnly rest (mode, name, hash) with
      | .ok out =>
        .ok ((formattedMode ++ " " ++ entryType ++ " " ++ hash ++ "\t" ++ name ++ "\n") :: out)
      | .error e => .error e

/-- `MiniVCS::lsTree`: the lines printed on standard output. -/
def lsTree (cd : Codec) (cwd : Dir) (sha : Str) (nameOnly : Bool) :
    Except Err (List Str) :=
  match readObject cd cwd sha with
  | .error e => .error e
  | .ok (type, content) =>
    if type ≠ "tree" then .error .notATree
    else lsTreeLoop nameOnly (getlines content) ([], [], [])

/-! ## Commit chain -/

/-- The first line of the file at `path`, as `getline` on an `ifstream` leaves
it in an empty string: empty when the stream cannot be read. -/
def firstLine (cwd : Dir) (path : Str) : Str :=
  match readFile cwd path with
  | some s => getline s
  | none => []

/-- The block with which `commit` and `log` both start: the first line of
`HEAD`; when it starts with `ref: ` and the file it names exists, the first
line of that file; otherwise the empty string. (`substr(0, 5)` cannot throw,
and `substr(5)` is only reached on a line of at least 5 characters.) -/
def readHeadRef (cwd : Dir) : Str :=
  let head_content := firstLine cwd HEAD_FILE
  if head_content.take 5 = ("ref: " : Str) then
    let ref_path := GIT_DIR ++ "/" ++ head_content.drop 5
    if pathExists cwd ref_path then firstLine cwd ref_path else []
  else []

/-- The `commit_content` stream of `commit`; `current_time` is `time(nullptr)`. -/
def commitContent (tree_sha parent_sha : Str) (current_time : Nat) (message : Str) : Str :=
  ("tree " : Str) ++ tree_sha ++ "\n"
    ++ (if parent_sha ≠ [] then ("parent " : Str) ++ parent_sha ++ "\n" else [])
    ++ "author User <user@example.com> " ++ to_string current_time ++ "\n"
    ++ "committer User <user@example.com> " ++ to_string current_time ++ "\n"
    ++ "timestamp " ++ to_string current_time ++ "\n\n"
    ++ message

/-- `MiniVCS::commit`; `current_time` is the value of `time(nullptr)`. -/
def commit (cd : Codec) (current_time : Nat) (cwd : Dir) (message : Str) :
    Except Err (Str × Dir) :=
  match writeTree cd cwd with
  | .error e => .error e
  | .ok (tree_sha, cwd1) =>
    let parent_sha := readHeadRef cwd1
    let content := commitContent tree_sha parent_sha current_time message
    match writeObject cd cwd1 "commit" content with
    | .error e => .error e
    | .ok cwd2 =>
      let commit_sha := cd.calculateSHA1
        (("commit " : Str) ++ to_string content.length ++ cstr "\x00" ++ content)
      let ref_path := GIT_DIR ++ "/refs/heads/master"
      -- `fs::path(ref_path).parent_path()` is `.mygit/refs/heads`
      match create_directories cwd2 (GIT_DIR ++ "/refs/heads") with
      | .error e => .error e
      | .ok cwd3 => .ok (commit_sha, writeFile cwd3 ref_path commit_sha)

/-- `std::stoll`: leading white space, an optional sign, then at least one
decimal digit; what follows the digits is ignored. -/
def stoll (s : Str) : Except Err Int :=
  let s1 := s.dropWhile isspace
  let neg := s1.head? = some '-'
  let s2 := if s1.head? = some '-' ∨ s1.head? = some '+' then s1.drop 1 else s1
  let ds := s2.takeWhile Char.isDigit
  if ds = [] then .error .invalidArgument
  else
    let v : Int := (ds.foldl (fun a c => 10 * a + (c.toNat - 48)) 0 : Nat)
    let i : Int := if neg then -v else v
    if i < -(2 : Int) ^ 63 ∨ (2 : Int) ^ 63 - 1 < i then .error .outOfRange else .ok i

/-- What `log` prints, piece by piece. -/
inductive Out where
  /-- the line `commit <sha>` -/
  | commit (sha : Str)
  /-- the line `Date: ...` rendering `commit_time` -/
  | date (commit_time : Int)
  /-- the indented message line -/
  | message (line : Str)
  deriving DecidableEq, Repr

/-- The inner loop of `log` over the lines of one commit, with `parent_sha` and
`message_next` as state: the final `parent_sha` (or the exception), and what
was printed. -/
def logLines : List Str → Str → Bool → Except Err Str × List Out
  | [], parent_sha, _ => (.ok parent_sha, [])
  | line :: rest, parent_sha, message_next =>
    if line.take 7 = ("parent " : Str) then logLines rest (line.drop 7) message_next
    else if line.take 10 = ("timestamp " : Str) then
      match stoll (line.drop 10) with
      | .error e => (.error e, [])
      | .ok commit_time =>
        let (r, out) := logLines rest parent_sha message_next
        (r, .date commit_time :: out)
    else if line = [] then logLines rest parent_sha true
    else if message_next then (.ok parent_sha, [.message line])
    else logLines rest parent_sha message_next

/-- The loop `while (!current_sha.empty())` of `log`, for at most the given
number of iterations. -/
def logFrom (cd : Codec) (cwd : Dir) : Nat → Str → Except Err Unit × List Out
  | 0, current_sha => if current_sha = [] then (.ok (), []) else (.error .outOfFuel, [])
  | fuel + 1, current_sha =>
    if current_sha = [] then (.ok (), [])
    else
      match readObject cd cwd current_sha with
      | .error e => (.error e, [])
      | .ok (type, content) =>
        if type ≠ "commit" then (.ok (), [])
        else
          match logLines (getlines content) [] false with
          | (.error e, out) => (.error e, .commit current_sha :: out)
          | (.ok parent_sha, out) =>
            let (r, out1) := logFrom cd cwd fuel parent_sha
            (r, .commit current_sha :: (out ++ out1))

/-- `MiniVCS::log`: how it ends, and what it printed. -/
def log (cd : Codec) (cwd : Dir) (fuel : Nat) : Except Err Unit × List Out :=
  logFrom cd cwd fuel (readHeadRef cwd)

/-- The digests of the commits that a run of `log` printed, in order. -/
def visited : List Out → List Str
  | [] => []
  | .commit sha :: rest => sha :: visited rest
  | _ :: rest => visited rest

/-! ## Checkout -/

/-- The loop of `restoreTree` over the lines of a tree; `recur` is the
recursive call `restoreTree(sha, full_path, executable_name)`. Returns how the
loop ended and the current directory at that point. -/
def restoreLoop (cd : Codec) (executable_name : Str)
    (recur : Str → Str → Dir → Except Err Unit × Dir) (path : Str) :
    List Str → Dir → Except Err Unit × Dir
  | [], cwd => (.ok (), cwd)
  | line :: rest, cwd =>
    let (mode, name, sha) := parseEntry line
    if name = executable_name then restoreLoop cd executable_name recur path rest cwd
    else
      let full_path := path ++ "/" ++ name
      if mode = ("40000" : Str) then
        match create_directories cwd full_path with
        | .error e => (.error e, cwd)
        | .ok cwd1 =>
          match recur sha full_path cwd1 with
          | (.error e, cwd2) => (.error e, cwd2)
          | (.ok _, cwd2) => restoreLoop cd executable_name recur path rest cwd2
      else
        match readObject cd cwd sha with
        | .error e => (.error e, cwd)
        | .ok (blob_type, blob_content) =>
          if blob_type ≠ "blob" then (.error .notABlob, cwd)
          else
            restoreLoop cd executable_name recur path rest
              (writeFile cwd full_path blob_content)

/-- `MiniVCS::restoreTree`, with a bound on the depth of the recursion. -/
def restoreTree (cd : Codec) (executable_name : Str) :
    Nat → Str → Str → Dir → Except Err Unit × Dir
  | 0, _, _, cwd => (.error .outOfFuel, cwd)
  | fuel + 1, tree_sha, path, cwd =>
    match readObject cd cwd tree_sha with
    | .error e => (.error e, cwd)
    | .ok (type, content) =>
      if type ≠ "tree" then (.error .notATree, cwd)
      else
        restoreLoop cd executable_name (restoreTree cd executable_name fuel) path
          (getlines content) cwd

/-- The loop of `checkout` that looks for the tree line: the rest of the first
line that starts with `tree `, or the empty string. -/
def treeLine : List Str → Str
  | [] => []
  | line :: rest =>
    if line.take 5 = ("tree " : Str) then line.drop 5 else treeLine rest

/-- `MiniVCS::checkout`; `executable_name` is the file name that
`/proc/self/exe` points to, `fuel` bounds the depth of `restoreTree`. Returns
how the call ended and the current directory at that point. -/
def checkout (cd : Codec) (executable_name : Str) (fuel : Nat) (cwd : Dir)
    (commit_sha : Str) : Except Err Unit × Dir :=
  match readObject cd cwd commit_sha with
  | .error e => (.error e, cwd)
  | .ok (type, content) =>
    if type ≠ "commit" then (.error .notACommit, cwd)
    else
      let tree_sha := treeLine (getlines content)
      let cwd1 := cwd.filter (fun entry => entry.1 = GIT_DIR ∨ entry.1 = executable_name)
      match restoreTree cd executable_name fuel tree_sha "." cwd1 with
      | (.error e, cwd2) => (.error e, cwd2)
      | (.ok _, cwd2) => (.ok (), writeFile cwd2 HEAD_FILE commit_sha)

/-! ## A stand-in codec for evaluating the model -/

/-- A 160-bit polynomial checksum rendered as 40 lowercase hexadecimal digits:
it stands in for SHA-1 wherever the model is run on a concrete input. -/
def toySHA1 (s : Str) : Str :=
  let h := s.foldl (fun h c => (h * 6364136223846793005 + c.toNat + 1) % 16 ^ 40)
    0x67452301efcdab8998badcfe10325476c3d2e1f0
  (List.range 40).map (fun i => Nat.digitChar (h / 16 ^ (39 - i) % 16))

/-- The stand-in codec: `toySHA1`, and no compression. -/
def toyCodec : Codec := ⟨toySHA1, id, id⟩

/-! ## Shapes and runs used in the statements -/

/-- The shape of a digest that `objectPath` maps to a four-component path:
40 characters, none of them a slash. -/
def WellFormedDigest (sha : Str) : Prop := sha.length = 40 ∧ '/' ∉ sha

instance (sha : Str) : Decidable (WellFormedDigest sha) := by
  unfold WellFormedDigest; infer_instance

/-- The children that the loop of `writeTree` does not skip. -/
def children (cwd : Dir) : Dir := cwd.filter (fun entry => entry.1 ≠ GIT_DIR)

/-- The line that `writeTree` emits for a child, given the digest computed for it. -/
def entryLine (entry : Str × Node) (sha : Str) : Str :=
  (if entry.2.isDirectory then ("40000 " : Str) else ("100644 " : Str))
    ++ entry.1 ++ " " ++ sha ++ "\n"

/-- The line that `writeTree` emits for a child, without its newline. -/
def entryText (entry : Str × Node) (sha : Str) : Str :=
  (if entry.2.isDirectory then ("40000 " : Str) else ("100644 " : Str))
    ++ entry.1 ++ " " ++ sha

/-- The names that the entry parser reads in a tree content. -/
def entryNames (content : Str) : List Str :=
  (parseTree content).map (fun e => e.2.1)

/-- What `init` leaves in an empty directory. -/
def emptyRepo : Dir :=
  [(".mygit", .dir [("objects", .dir []), ("refs", .dir [("heads", .dir [])]),
    ("HEAD", .file "ref: refs/heads/master")])]

/-- A directory whose object store holds one file, for the digest `abcdef`,
with the given (uncompressed) bytes, next to a file `hello.txt`. -/
def repoWithObject (bytes : Str) : Dir :=
  [(".mygit", .dir [("objects", .dir [("ab", .dir [("cdef", .file bytes)])]),
    ("refs", .dir [("heads", .dir [])]), ("HEAD", .file "ref: refs/heads/master")]),
   ("hello.txt", .file "hello\n")]

/-- `init` in the directory `wd`, then `writeTree`: the digest and the directory. -/
def initWriteTree (cd : Codec) (wd : Dir) : Except Err (Str × Dir) :=
  match init wd with
  | .error e => .error e
  | .ok repo => writeTree cd repo

/-- `init` in the directory `wd`, then `commit`: the digest and the directory. -/
def initCommit (cd : Codec) (wd : Dir) (current_time : Nat) (message : Str) :
    Except Err (Str × Dir) :=
  match init wd with
  | .error e => .error e
  | .ok repo => commit cd current_time repo message

/-- The tree digest recorded in the stored commit `commit_sha`, as `checkout`
extracts it. -/
def recordedTree (cd : Codec) (cwd : Dir) (commit_sha : Str) : Except Err Str :=
  match readObject cd cwd commit_sha with
  | .error e => .error e
  | .ok (_, content) => .ok (treeLine (getlines content))

/-- What is observed of `init` in a directory, `commit`, then `checkout` of
that commit. -/
structure FidelityRun where
  /-- how `checkout` ended -/
  outcome : Except Err Unit
  /-- the bytes of the observed file after `checkout` -/
  bytes : Option Str
  /-- the tree digest recorded in the commit -/
  recorded : Except Err Str
  /-- the digest that `writeTree` returns after `checkout` -/
  snapshot : Except Err Str
  deriving DecidableEq

/-- `init` in `wd`, `commit`, then `checkout` of that commit, observing the
file `name`. -/
def fidelityRun (cd : Codec) (wd : Dir) (name : Str) : Except Err FidelityRun :=
  match initCommit cd wd 1700000000 "first" with
  | .error e => .error e
  | .ok (h, repo1) =>
    let r := checkout cd "mygit" 8 repo1 h
    .ok ⟨r.1, readFile r.2 name, recordedTree cd repo1 h, (writeTree cd r.2).map Prod.fst⟩

/-- What is observed of three commits followed by `log`. -/
structure ChainRun where
  /-- the digests of the three commits, newest first -/
  commits : List Str
  /-- how `log` ended -/
  outcome : Except Err Unit
  /-- the digests of the commits that `log` printed, in order -/
  printed : List Str
  deriving DecidableEq

/-- `init` in an empty directory, three commits, the third with the message
`parent <digest of the first>`, then `log`. -/
def chainRun (cd : Codec) : Except Err ChainRun :=
  match initCommit cd [] 1700000000 "first" with
  | .error e => .error e
  | .ok (c1, repo1) =>
    match commit cd 1700000060 repo1 "second" with
    | .error e => .error e
    | .ok (c2, repo2) =>
      match commit cd 1700000120 repo2 (("parent " : Str) ++ c1) with
      | .error e => .error e
      | .ok (c3, repo3) =>
        let r := log cd repo3 8
        .ok ⟨[c3, c2, c1], r.1, visited r.2⟩

/-- What is observed of reading back a tree that `writeTree` wrote. -/
structure TreeRoundTrip where
  /-- the entries `(mode, name, sha)` that the parser of `restoreTree` finds -/
  entries : List (Str × Str × Str)
  /-- the lines that `lsTree --name-only` prints -/
  names : Except Err (List Str)
  deriving DecidableEq

/-- `init` in `wd`, `writeTree`, then reading the tree back. -/
def treeRoundTrip (cd : Codec) (wd : Dir) : Except Err TreeRoundTrip :=
  match initWriteTree cd wd with
  | .error e => .error e
  | .ok (t, repo1) =>
    match readObject cd repo1 t with
    | .error e => .error e
    | .ok (_, content) => .ok ⟨parseTree content, lsTree cd repo1 t true⟩

/-- What is observed of a commit made after a `checkout`. -/
structure DetachedRun where
  /-- the digest of the first commit -/
  first : Str
  /-- how `checkout` of the first commit ended -/
  outcome : Except Err Unit
  /-- the first line of `refs/heads/master` before the second commit -/
  slotBefore : Str
  /-- the digest of the second commit -/
  second : Str
  /-- what `readObject` returns for the second commit -/
  stored : Except Err (Str × Str)
  /-- the first line of `refs/heads/master` after the second commit -/
  slotAfter : Str
  deriving DecidableEq

/-- `init` in an empty directory, `commit`, `checkout` of that commit, then a
second `commit`. -/
def detachedRun (cd : Codec) : Except Err DetachedRun :=
  match initCommit cd [] 1700000000 "first" with
  | .error e => .error e
  | .ok (c1, repo1) =>
    let r := checkout cd "mygit" 8 repo1 c1
    match commit cd 1700000060 r.2 "second" with
    | .error e => .error e
    | .ok (c2, repo3) =>
      .ok ⟨c1, r.1, firstLine r.2 (GIT_DIR ++ "/refs/heads/master"), c2,
        readObject cd repo3 c2, firstLine repo3 (GIT_DIR ++ "/refs/heads/master")⟩

/-- What is observed of the objects of a snapshot. -/
structure ClosureRun where
  /-- what `readObject`, run in the root, returns for the root tree -/
  root : Except Err (Str × Str)
  /-- what `readObject`, run in the root, returns for each digest recorded in
  the root tree -/
  recorded : List (Except Err (Str × Str))
  /-- what `readObject`, run inside the subdirectory, returns for the first
  digest recorded in the root tree -/
  inside : Except Err (Str × Str)
  deriving DecidableEq

/-- `init` in `wd`, then `writeTree`, then `readObject` on the root tree and on
the digests recorded in it, in the root and inside the subdirectory `sub`. -/
def closureRun (cd : Codec) (wd : Dir) (sub : Str) : Except Err ClosureRun :=
  match initWriteTree cd wd with
  | .error e => .error e
  | .ok (t, repo1) =>
    let recorded :=
      match readObject cd repo1 t with
      | .error _ => []
      | .ok (_, content) => (parseTree content).map (fun (e : Str × Str × Str) => e.2.2)
    let inside :=
      match lookup sub repo1 with
      | some (.dir d) => readObject cd d (recorded.headD [])
      | _ => .error (.fileNotFound sub)
    .ok ⟨readObject cd repo1 t, recorded.map (readObject cd repo1), inside⟩

/-- A directory that is enumerated as `b.txt`, then `a.txt`. -/
def dirBA : Dir := [("b.txt", .file "b\n"), ("a.txt", .file "a\n")]

/-- The same directory, enumerated as `a.txt`, then `b.txt`. -/
def dirAB : Dir := [("a.txt", .file "a\n"), ("b.txt", .file "b\n")]

/-- The directory after `writeObject("blob", "hello\n")` in a fresh repository,
with the stand-in codec. -/
def helloRepo : Dir :=
  [(".mygit", .dir [("objects", .dir [("d7", .dir
      [("436a0fcec01bd8663d275c7fe9928cb0a49a87", .file "blob 6hello\n")])]),
    ("refs", .dir [("heads", .dir [])]), ("HEAD", .file "ref: refs/heads/master")])]

/-- The directory after `writeObject("blob", "hi\n")` in a fresh repository,
with the stand-in codec. -/
def hiRepo : Dir :=
  [(".mygit", .dir [("objects", .dir [("94", .dir
      [("dc142bfd09692fca39523bbd39d716ea2c3f4e", .file "blob 3hi\n")])]),
    ("refs", .dir [("heads", .dir [])]), ("HEAD", .file "ref: refs/heads/master")])]

/-- A legal file name: not empty, without slash or NUL byte, and neither `.`
nor `..`. -/
def legalName (name : Str) : Bool :=
  name ≠ [] ∧ '/' ∉ name ∧ '\x00' ∉ name ∧ name ≠ ['.'] ∧ name ≠ ['.', '.']

mutual
/-- A node all of whose directories are well formed. -/
def Node.wellFormed : Node → Bool
  | .file _ => true
  | .dir entries => wellFormedEntries entries
/-- A well-formed directory: apart from the entries called `.mygit`, the names
are legal file names, no name occurs twice, and the subdirectories are well
formed. -/
def wellFormedEntries : Dir → Bool
  | [] => true
  | (name, node) :: rest =>
    if name = GIT_DIR then wellFormedEntries rest
    else legalName name && (lookup name rest).isNone && node.wellFormed
      && wellFormedEntries rest
end

mutual
/-- A closed form to compare `writeTree` with: the digest of the object that
stands for a node, the blob of a file's bytes or the tree of a directory's
`treeText`. -/
def objectDigest (cd : Codec) : Node → Str
  | .file bytes => cd.calculateSHA1 (objectStore "blob" bytes)
  | .dir entries => cd.calculateSHA1 (objectStore "tree" (treeText cd entries))
/-- A closed form to compare `writeTree` with: the tree content of a
directory, written out from its entries in their order; for each entry other
than `.mygit` the line `entryLine` with the digest of the entry's object. -/
def treeText (cd : Codec) : Dir → Str
  | [] => []
  | (name, node) :: rest =>
    if name = GIT_DIR then treeText cd rest
    else entryLine (name, node) (objectDigest cd node) ++ treeText cd rest
end

mutual
/-- A node without the `.mygit` entries of its directories. -/
def Node.working : Node → Node
  | .file bytes => .file bytes
  | .dir entries => .dir (workingEntries entries)
/-- The contents of a directory: its entries, in their order, without the
entries called `.mygit`, at every depth. -/
def workingEntries : Dir → Dir
  | [] => []
  | (name, node) :: rest =>
    if name = GIT_DIR then workingEntries rest
    else (name, node.working) :: workingEntries rest
end

/-! ## File-system lemmas -/

/-- `init` in an empty directory leaves `emptyRepo`. -/
theorem init_empty_directory : init [] = .ok emptyRepo := by
  decide!

theorem lookup_setEntry (name : Str) (x : Node) (d : Dir) :
    lookup name (setEntry name x d) = some x := by
  induction d with
  | nil => simp [setEntry, lookup]
  | cons e rest ih =>
    obtain ⟨n, y⟩ := e
    by_cases h : n = name
    · simp [setEntry, lookup, h]
    · simp [setEntry, lookup, h, ih]

theorem resolve_cons_dir {n : Str} {d sub : Dir} (t : List Str)
    (h : lookup n d = some (.dir sub)) : resolve d (n :: t) = resolve sub t := by
  simp [resolve, h]

theorem resolve_cons_none {n : Str} {d : Dir} (t : List Str)
    (h : lookup n d = none) : resolve d (n :: t) = none := by
  simp [resolve, h]

theorem writeAt_cons_dir {n : Str} {d sub : Dir} {t : List Str} (bytes : Str)
    (h : lookup n d = some (.dir sub)) (ht : t ≠ []) :
    writeAt (n :: t) bytes d = setEntry n (.dir (writeAt t bytes sub)) d := by
  cases t with
  | nil => exact absurd rfl ht
  | cons g q => simp [writeAt, h]

theorem resolve_writeAt_createDirs (f bytes : Str) :
    ∀ (p : List Str) (d d1 : Dir), createDirs p d = .ok d1 →
      (∀ sub, resolve d (p ++ [f]) ≠ some (.dir sub)) →
      resolve (writeAt (p ++ [f]) bytes d1) (p ++ [f]) = some (.file bytes) := by
  intro p
  induction p with
  | nil =>
    intro d d1 h hnd
    simp only [createDirs, Except.ok.injEq] at h
    subst h
    simp only [List.nil_append, resolve] at hnd ⊢
    cases hl : lookup f d with
    | none => simp [writeAt, hl, resolve, lookup_setEntry]
    | some x =>
      cases x with
      | file b => simp [writeAt, hl, resolve, lookup_setEntry]
      | dir sub => simp [hl, resolve] at hnd
  | cons n p ih =>
    intro d d1 h hnd
    have hne : p ++ [f] ≠ [] := by simp
    rw [List.cons_append] at hnd ⊢
    simp only [createDirs] at h
    cases hl : lookup n d with
    | none =>
      simp only [hl] at h
      cases hc : createDirs p [] with
      | error e => simp [hc] at h
      | ok sub1 =>
        simp only [hc, Except.ok.injEq] at h
        subst h
        have h1 := ih [] sub1 hc (by
          intro sub
          cases hp : p ++ [f] with
          | nil => exact absurd hp hne
          | cons g q => simp [resolve, lookup])
        rw [writeAt_cons_dir bytes (lookup_setEntry _ _ _) hne,
          resolve_cons_dir _ (lookup_setEntry _ _ _)]
        exact h1
    | some x =>
      cases x with
      | file b => simp [hl] at h
      | dir sub =>
        simp only [hl] at h
        cases hc : createDirs p sub with
        | error e => simp [hc] at h
        | ok sub1 =>
          simp only [hc, Except.ok.injEq] at h
          subst h
          rw [resolve_cons_dir _ hl] at hnd
          have h1 := ih sub sub1 hc hnd
          rw [writeAt_cons_dir bytes (lookup_setEntry _ _ _) hne,
            resolve_cons_dir _ (lookup_setEntry _ _ _)]
          exact h1

theorem components_intercalate (ls : List Str) (hne : ls ≠ [])
    (h : ∀ l ∈ ls, '/' ∉ l ∧ l ≠ [] ∧ l ≠ ['.']) :
    components (List.intercalate ['/'] ls) = ls := by
  unfold components
  rw [List.splitOn_intercalate ls '/' (fun l hl => (h l hl).1) hne]
  rw [List.filter_eq_self]
  intro l hl
  simpa using (h l hl).2


theorem substr_zero_two (sha : Str) : substr sha 0 2 = .ok (sha.take 2) := by
  have : npos ≠ 2 := by decide
  simp [substr, this.symm]

theorem substrFrom_ok {s : Str} {k : Nat} (h : k ≤ s.length) : substrFrom s k = .ok (s.drop k) := by
  simp [substrFrom, substr, Nat.not_lt.mpr h]

theorem objectPath_ok {sha : Str} (h : 2 ≤ sha.length) :
    objectPath sha = .ok (OBJECTS_DIR ++ "/" ++ sha.take 2 ++ "/" ++ sha.drop 2) := by
  simp [objectPath, substr_zero_two, substrFrom_ok h]

theorem objectDir_components {sha : Str} (h : WellFormedDigest sha) :
    components (OBJECTS_DIR ++ "/" ++ sha.take 2)
      = ([".mygit", "objects", sha.take 2] : List Str) := by
  have e : OBJECTS_DIR ++ ("/" : Str) ++ sha.take 2
      = List.intercalate ['/'] ([".mygit", "objects", sha.take 2] : List Str) := by
    simp [List.intercalate, OBJECTS_DIR, GIT_DIR]
  rw [e]
  apply components_intercalate _ (by simp)
  intro l hl
  simp only [List.mem_cons, List.mem_singleton, List.not_mem_nil, or_false] at hl
  rcases hl with rfl | rfl | rfl
  · decide
  · decide
  · obtain ⟨h40, hs⟩ := h
    refine ⟨fun hm => hs (List.mem_of_mem_take hm), ?_, ?_⟩
    · intro h0; have := congrArg List.length h0; simp [h40] at this
    · intro h0; have := congrArg List.length h0; simp [h40] at this

theorem objectPath_components {sha : Str} (h : WellFormedDigest sha) :
    components (OBJECTS_DIR ++ "/" ++ sha.take 2 ++ "/" ++ sha.drop 2)
      = ([".mygit", "objects", sha.take 2] : List Str) ++ [sha.drop 2] := by
  have e : OBJECTS_DIR ++ ("/" : Str) ++ sha.take 2 ++ ("/" : Str) ++ sha.drop 2
      = List.intercalate ['/'] ([".mygit", "objects", sha.take 2, sha.drop 2] : List Str) := by
    simp [List.intercalate, OBJECTS_DIR, GIT_DIR]
  rw [e]
  apply components_intercalate _ (by simp)
  intro l hl
  simp only [List.mem_cons, List.mem_singleton, List.not_mem_nil, or_false] at hl
  obtain ⟨h40, hs⟩ := h
  rcases hl with rfl | rfl | rfl | rfl
  · decide
  · decide
  · refine ⟨fun hm => hs (List.mem_of_mem_take hm), ?_, ?_⟩
    · intro h0; have := congrArg List.length h0; simp [h40] at this
    · intro h0; have := congrArg List.length h0; simp [h40] at this
  · refine ⟨fun hm => hs (List.mem_of_mem_drop hm), ?_, ?_⟩
    · intro h0; have := congrArg List.length h0; simp [h40] at this
    · intro h0; have := congrArg List.length h0; simp [h40] at this

/-- Reading back what `writeObject` wrote: when the digest is well formed and
no directory sits at the object's path, the file at that path holds the
compressed `store`. -/
theorem readFile_writeObject {cd : Codec} {cwd cwd1 : Dir} {type content path : Str}
    (hsha : WellFormedDigest (cd.calculateSHA1 (objectStore type content)))
    (hpath : objectPath (cd.calculateSHA1 (objectStore type content)) = .ok path)
    (hfree : is_directory cwd path = false)
    (hw : writeObject cd cwd type content = .ok cwd1) :
    readFile cwd1 path = some (cd.compressData (objectStore type content)) := by
  have h2 : 2 ≤ (cd.calculateSHA1 (objectStore type content)).length := by
    rw [hsha.1]; decide
  rw [objectPath_ok h2] at hpath
  cases hpath
  unfold writeObject at hw
  dsimp only at hw
  rw [substr_zero_two, substrFrom_ok h2] at hw
  dsimp only at hw
  unfold create_directories writeFile at hw
  rw [objectDir_components hsha, objectPath_components hsha] at hw
  unfold is_directory at hfree
  unfold readFile
  rw [objectPath_components hsha] at hfree ⊢
  cases hc : createDirs ([".mygit", "objects",
      (cd.calculateSHA1 (objectStore type content)).take 2] : List Str) cwd with
  | error e => rw [hc] at hw; cases hw
  | ok c1 =>
    rw [hc] at hw
    cases hw
    have hr := resolve_writeAt_createDirs
      ((cd.calculateSHA1 (objectStore type content)).drop 2)
      (cd.compressData (objectStore type content)) _ _ _ hc
      (by intro sub hsub; rw [hsub] at hfree; cases hfree)
    rw [hr]

/-- `readObject` on the digest of an object that `writeObject` has just
written decompresses and splits the compressed `store`. -/
theorem readObject_writeObject {cd : Codec} {cwd cwd1 : Dir} {type content : Str}
    (hsha : WellFormedDigest (cd.calculateSHA1 (objectStore type content)))
    (hfree : (objectPath (cd.calculateSHA1 (objectStore type content))).map
      (is_directory cwd) = .ok false)
    (hw : writeObject cd cwd type content = .ok cwd1) :
    readObject cd cwd1 (cd.calculateSHA1 (objectStore type content))
      = splitObject (cd.decompressData (cd.compressData (objectStore type content))) := by
  have h2 : 2 ≤ (cd.calculateSHA1 (objectStore type content)).length := by
    rw [hsha.1]; decide
  have hp := objectPath_ok h2
  rw [hp] at hfree
  have hf : is_directory cwd (OBJECTS_DIR ++ "/"
      ++ (cd.calculateSHA1 (objectStore type content)).take 2 ++ "/"
      ++ (cd.calculateSHA1 (objectStore type content)).drop 2) = false := by
    simpa [Except.map] using hfree
  unfold readObject
  rw [hp]
  dsimp only
  rw [readFile_writeObject hsha hp hf hw]

/-! ## C1: object round trip -/

/-- C1, on the blob of `hello\n`: for every codec whose decompression inverts
its compression on the stored string and whose digest of it is well formed,
and from every directory in which `writeObject("blob", "hello\n")` succeeds
and no directory sits at the object's path, `readObject` on the digest returns
the kind `blob` and the content `ello\n`: the first byte of the content is
lost. So `cat-file -p` prints `ello\n` and `cat-file -s` prints `5`, where the
claim has `hello\n` and `6`. -/
theorem readObject_hello_loses_first_byte (cd : Codec) (cwd cwd1 : Dir)
    (hinv : cd.decompressData (cd.compressData (objectStore "blob" "hello\n"))
      = objectStore "blob" "hello\n")
    (hsha : WellFormedDigest (cd.calculateSHA1 (objectStore "blob" "hello\n")))
    (hfree : (objectPath (cd.calculateSHA1 (objectStore "blob" "hello\n"))).map
      (is_directory cwd) = .ok false)
    (hw : writeObject cd cwd "blob" "hello\n" = .ok cwd1) :
    readObject cd cwd1 (cd.calculateSHA1 (objectStore "blob" "hello\n"))
        = .ok ("blob", "ello\n")
      ∧ catFile cd cwd1 (cd.calculateSHA1 (objectStore "blob" "hello\n")) 'p' = .ok "ello\n"
      ∧ catFile cd cwd1 (cd.calculateSHA1 (objectStore "blob" "hello\n")) 't' = .ok "blob"
      ∧ catFile cd cwd1 (cd.calculateSHA1 (objectStore "blob" "hello\n")) 's' = .ok "5" := by
  have hr := readObject_writeObject hsha hfree hw
  rw [hinv] at hr
  have hs : splitObject (objectStore "blob" "hello\n") = .ok ("blob", "ello\n") := by decide!
  rw [hs] at hr
  refine ⟨hr, ?_, ?_, ?_⟩
  · unfold catFile; rw [hr]; rfl
  · unfold catFile; rw [hr]; rfl
  · unfold catFile; rw [hr]; decide!

/-- C1, evaluated: in a fresh repository, with the stand-in codec. -/
theorem readObject_hello_loses_first_byte_witness :
    readObject toyCodec helloRepo (toyCodec.calculateSHA1 (objectStore "blob" "hello\n"))
        = .ok ("blob", "ello\n")
      ∧ catFile toyCodec helloRepo (toyCodec.calculateSHA1 (objectStore "blob" "hello\n")) 'p'
        = .ok "ello\n"
      ∧ catFile toyCodec helloRepo (toyCodec.calculateSHA1 (objectStore "blob" "hello\n")) 't'
        = .ok "blob"
      ∧ catFile toyCodec helloRepo (toyCodec.calculateSHA1 (objectStore "blob" "hello\n")) 's'
        = .ok "5" :=
  readObject_hello_loses_first_byte toyCodec emptyRepo helloRepo (by decide!) (by decide!)
    (by decide!) (by decide!)

/-! ## C2: the hashed string -/

/-- C2: the string that `writeObject` hashes for `(type, content)`, and the one
`hashObject` hashes for a file with bytes `content`, is the type, one space,
the decimal length and then the content directly: the literal `"\0"` adds no
byte, so the string is not the one of the claim, which has a NUL byte between
the length and the content. -/
theorem hashed_string_has_no_NUL (cd : Codec) (cwd : Dir) (path type content : Str) :
    objectStore type content = type ++ " " ++ to_string content.length ++ content
      ∧ objectStore type content
          ≠ type ++ " " ++ to_string content.length ++ "\x00" ++ content
      ∧ hashObject cd cwd path false
          = (match readFile cwd path with
            | none => .error (.fileNotFound path)
            | some bytes =>
              .ok (cd.calculateSHA1 (("blob " : Str) ++ to_string bytes.length ++ bytes), cwd))
      ∧ objectStore "blob" "hello\n" = ("blob 6hello\n" : Str) := by
  have hc : cstr ['\x00'] = [] := by decide
  refine ⟨?_, ?_, ?_, by decide!⟩
  · simp [objectStore, hc]
  · intro h
    have := congrArg List.length h
    simp [objectStore, hc] at this
  · unfold hashObject
    cases readFile cwd path with
    | none => rfl
    | some bytes => simp [hc]

/-! ## C3: checkout fidelity -/

/-- C3, evaluated with the stand-in codec on the working directory that holds
the one file `hello.txt` with bytes `hello\n`: `init`, `commit`, then `checkout`
of that commit. `checkout` ends normally, but `hello.txt` then holds `ello\n`,
and `writeTree` afterwards returns a digest other than the tree digest
recorded in the commit. -/
theorem checkout_does_not_restore_hello :
    fidelityRun toyCodec [("hello.txt", .file "hello\n")] "hello.txt"
      = .ok ⟨.ok (), some "ello\n",
          .ok "5e5f51da7fab25aa4af0865abb19eccd550df07f",
          .ok "d2c2e0f65d3cb7f5a9828943b3a430f155ef5bc6"⟩ := by
  decide!

/-! ## C4: chain integrity -/

/-- C4, evaluated with the stand-in codec: after `init` and three commits with
the messages `first`, `second` and `parent <digest of the first commit>`, the
three commits have distinct digests, and `log` ends normally after printing
two commits only, the third and the first: the line of the message that
starts with `parent ` replaces the parent read from the header. -/
theorem log_skips_a_commit :
    chainRun toyCodec
      = .ok ⟨["ab82b8e4bcdce0daf177df59cb06c8980ed9ea43",
              "7fd2b233f14cd4f5527a5d872f4a66758847bb5e",
              "58e6a782ccaa659524ef45b128d19c8d453bfd48"],
          .ok (),
          ["ab82b8e4bcdce0daf177df59cb06c8980ed9ea43",
           "58e6a782ccaa659524ef45b128d19c8d453bfd48"]⟩ := by
  decide!

/-! ## C5: order of the tree entries -/

theorem tree_header_eq (content : Str) :
    ("tree " : Str) ++ to_string content.length ++ cstr "\x00" ++ content
      = objectStore "tree" content := by
  simp [objectStore]

/-- The loop of `writeTree` appends one line per child that is not skipped, in
the order of the enumeration. -/
theorem writeTreeLoop_content (cd : Codec) :
    ∀ (entries cwd : Dir) (acc content : Str) (cwd1 : Dir),
      writeTreeLoop cd entries cwd acc = .ok (content, cwd1) →
      ∃ shas : List Str, shas.length = (children entries).length
        ∧ content = acc ++ (List.zipWith entryLine (children entries) shas).flatten := by
  intro entries
  induction entries with
  | nil =>
    intro cwd acc content cwd1 h
    simp only [writeTreeLoop, Except.ok.injEq, Prod.mk.injEq] at h
    exact ⟨[], by simp [children], by simp [children, h.1]⟩
  | cons e rest ih =>
    obtain ⟨name, node⟩ := e
    intro cwd acc content cwd1 h
    rw [writeTreeLoop] at h
    by_cases hg : name = GIT_DIR
    · rw [if_pos hg] at h
      obtain ⟨shas, hl, hc⟩ := ih _ _ _ _ h
      exact ⟨shas, by simpa [children, hg] using hl, by simpa [children, hg] using hc⟩
    · rw [if_neg hg] at h
      have hch : children ((name, node) :: rest) = (name, node) :: children rest := by
        simp [children, hg]
      by_cases hd : node.isDirectory = true
      · rw [if_pos hd] at h
        cases hw : writeTreeIn cd node with
        | error e => rw [hw] at h; cases h
        | ok r =>
          obtain ⟨subtree_sha, sub1⟩ := r
          rw [hw] at h
          obtain ⟨shas, hl, hc⟩ := ih _ _ _ _ h
          refine ⟨subtree_sha :: shas, by simp [hch, hl], ?_⟩
          rw [hc, hch]
          simp [entryLine, hd]
      · rw [if_neg hd] at h
        cases hw : hashObject cd cwd (("./" : Str) ++ name) true with
        | error e => rw [hw] at h; cases h
        | ok r =>
          obtain ⟨sha, cwd2⟩ := r
          rw [hw] at h
          obtain ⟨shas, hl, hc⟩ := ih _ _ _ _ h
          refine ⟨sha :: shas, by simp [hch, hl], ?_⟩
          rw [hc, hch]
          simp [entryLine, hd]

/-- C5, as stated, fails: with the stand-in codec, in a fresh repository whose
directory is enumerated as `b.txt`, `a.txt`, the tree content lists `b.txt`
before `a.txt`, although `a.txt` is the smaller name; and the same directory
enumerated as `a.txt`, `b.txt` gets another tree content and another digest. -/
theorem tree_entries_not_sorted :
    init dirBA = .ok (dirBA ++ emptyRepo)
      ∧ init dirAB = .ok (dirAB ++ emptyRepo)
      ∧ (treeContent toyCodec (dirBA ++ emptyRepo)).map entryNames = .ok ["b.txt", "a.txt"]
      ∧ ("a.txt" : Str) < "b.txt"
      ∧ dirBA.Perm dirAB
      ∧ treeContent toyCodec (dirBA ++ emptyRepo) ≠ treeContent toyCodec (dirAB ++ emptyRepo)
      ∧ (writeTree toyCodec (dirBA ++ emptyRepo)).map Prod.fst
          ≠ (writeTree toyCodec (dirAB ++ emptyRepo)).map Prod.fst := by
  refine ⟨by decide!, by decide!, by decide!, by decide, List.Perm.swap _ _ _, by decide!,
    by decide!⟩

theorem lookup_setEntry_ne {n name : Str} (x : Node) (d : Dir) (h : n ≠ name) :
    lookup name (setEntry n x d) = lookup name d := by
  induction d with
  | nil => simp [setEntry, lookup, h]
  | cons e rest ih =>
    obtain ⟨m, y⟩ := e
    by_cases hm : m = n
    · subst hm; simp [setEntry, lookup, h]
    · by_cases hmn : m = name
      · subst hmn
        simp [setEntry, lookup, hm]
      · simp [setEntry, lookup, hm, hmn, ih]

theorem lookup_createDirs_ne {n name : Str} {t : List Str} {d d1 : Dir}
    (hc : createDirs (n :: t) d = .ok d1) (h : n ≠ name) :
    lookup name d1 = lookup name d := by
  simp only [createDirs] at hc
  cases hl : lookup n d with
  | none =>
    simp only [hl] at hc
    cases hs : createDirs t [] with
    | error e => rw [hs] at hc; cases hc
    | ok s1 => rw [hs] at hc; cases hc; exact lookup_setEntry_ne _ _ h
  | some x =>
    cases x with
    | file b => simp only [hl] at hc; cases hc
    | dir sub =>
      simp only [hl] at hc
      cases hs : createDirs t sub with
      | error e => rw [hs] at hc; cases hc
      | ok s1 => rw [hs] at hc; cases hc; exact lookup_setEntry_ne _ _ h

theorem lookup_writeAt_ne {n name : Str} (t : List Str) (bytes : Str) (d : Dir)
    (h : n ≠ name) : lookup name (writeAt (n :: t) bytes d) = lookup name d := by
  cases t with
  | nil =>
    simp only [writeAt]
    split
    · rfl
    · exact lookup_setEntry_ne _ _ h
  | cons g q =>
    simp only [writeAt]
    split
    · exact lookup_setEntry_ne _ _ h
    · rfl

theorem components_git (rest : Str) :
    components (GIT_DIR ++ '/' :: rest) = GIT_DIR :: components rest := by
  unfold components List.splitOn
  rw [List.splitOnP_first (fun c => c == '/') GIT_DIR (by decide) '/' (by decide) rest]
  rw [List.filter_cons_of_pos (by decide)]

/-- `writeObject` touches nothing but the entry `.mygit` of the current
directory. -/
theorem lookup_writeObject {cd : Codec} {cwd cwd1 : Dir} {type content name : Str}
    (hw : writeObject cd cwd type content = .ok cwd1) (h : name ≠ GIT_DIR) :
    lookup name cwd1 = lookup name cwd := by
  unfold writeObject at hw
  dsimp only at hw
  rw [substr_zero_two] at hw
  cases hf : substrFrom (cd.calculateSHA1 (objectStore type content)) 2 with
  | error e => rw [hf] at hw; cases hw
  | ok f =>
    rw [hf] at hw
    dsimp only at hw
    have e1 : OBJECTS_DIR ++ ("/" : Str) ++ (cd.calculateSHA1 (objectStore type content)).take 2
        = GIT_DIR ++ '/' :: (("objects/" : Str)
          ++ (cd.calculateSHA1 (objectStore type content)).take 2) := by
      simp [OBJECTS_DIR, GIT_DIR]
    have e2 : OBJECTS_DIR ++ ("/" : Str) ++ (cd.calculateSHA1 (objectStore type content)).take 2
          ++ ("/" : Str) ++ f
        = GIT_DIR ++ '/' :: (("objects/" : Str)
          ++ (cd.calculateSHA1 (objectStore type content)).take 2 ++ ("/" : Str) ++ f) := by
      simp [OBJECTS_DIR, GIT_DIR]
    unfold create_directories writeFile at hw
    rw [e2, e1, components_git, components_git] at hw
    cases hc : createDirs (GIT_DIR :: components (("objects/" : Str)
        ++ (cd.calculateSHA1 (objectStore type content)).take 2)) cwd with
    | error e => rw [hc] at hw; cases hw
    | ok c1 =>
      rw [hc] at hw
      cases hw
      rw [lookup_writeAt_ne _ _ _ (Ne.symm h), lookup_createDirs_ne hc (Ne.symm h)]

theorem components_dot_slash {name : Str} (h : legalName name = true) :
    components (("./" : Str) ++ name) = [name] := by
  have hl : name ≠ [] ∧ '/' ∉ name ∧ '\x00' ∉ name ∧ name ≠ ['.'] ∧ name ≠ ['.', '.'] := by
    simpa [legalName] using h
  have e : ("./" : Str) ++ name = List.intercalate ['/'] [['.'], name] := by
    simp [List.intercalate]
  unfold components
  rw [e, List.splitOn_intercalate [['.'], name] '/' (by
    intro l hl'
    simp only [List.mem_cons, List.mem_singleton, List.not_mem_nil, or_false] at hl'
    rcases hl' with rfl | rfl
    · decide
    · exact hl.2.1) (by simp)]
  simp [hl.1, hl.2.2.2.1]

/-- `hashObject` with write-through, on a file of the current directory. -/
theorem hashObject_file {cd : Codec} {cwd cwd1 : Dir} {name bytes sha : Str}
    (hn : legalName name = true) (hl : lookup name cwd = some (.file bytes))
    (hh : hashObject cd cwd (("./" : Str) ++ name) true = .ok (sha, cwd1)) :
    sha = cd.calculateSHA1 (objectStore "blob" bytes)
      ∧ ∀ other, other ≠ GIT_DIR → lookup other cwd1 = lookup other cwd := by
  have hr : readFile cwd (("./" : Str) ++ name) = some bytes := by
    unfold readFile
    rw [components_dot_slash hn]
    simp [resolve, hl]
  unfold hashObject at hh
  rw [hr] at hh
  dsimp only at hh
  rw [if_pos rfl] at hh
  cases hw : writeObject cd cwd "blob" bytes with
  | error e => rw [hw] at hh; cases hh
  | ok c1 =>
    rw [hw] at hh
    cases hh
    refine ⟨?_, fun other ho => lookup_writeObject hw ho⟩
    rfl


theorem wellFormedEntries_cons {name : Str} {node : Node} {rest : Dir}
    (hg : name ≠ GIT_DIR) (h : wellFormedEntries ((name, node) :: rest) = true) :
    legalName name = true ∧ lookup name rest = none ∧ node.wellFormed = true
      ∧ wellFormedEntries rest = true := by
  rw [wellFormedEntries, if_neg hg] at h
  simp only [Bool.and_eq_true, Option.isNone_iff_eq_none] at h
  exact ⟨h.1.1.1, h.1.1.2, h.1.2, h.2⟩

theorem wellFormedEntries_git {node : Node} {rest : Dir}
    (h : wellFormedEntries ((GIT_DIR, node) :: rest) = true) :
    wellFormedEntries rest = true := by
  rw [wellFormedEntries, if_pos rfl] at h
  exact h

/-- In a well-formed directory, looking up the name of an entry other than
`.mygit` finds that entry. -/
theorem lookup_of_mem {name : Str} {node : Node} (hg : name ≠ GIT_DIR) :
    ∀ {entries : Dir}, wellFormedEntries entries = true → (name, node) ∈ entries →
      lookup name entries = some node := by
  intro entries
  induction entries with
  | nil => intro _ hm; cases hm
  | cons e rest ih =>
    obtain ⟨n, x⟩ := e
    intro hwf hm
    by_cases hn : n = GIT_DIR
    · subst hn
      have hr := wellFormedEntries_git hwf
      rcases List.mem_cons.mp hm with he | he
      · exact absurd (Prod.mk.inj he).1 hg
      · simp only [lookup, if_neg (Ne.symm hg)]
        exact ih hr he
    · obtain ⟨_, hnone, _, hr⟩ := wellFormedEntries_cons hn hwf
      rcases List.mem_cons.mp hm with he | he
      · obtain ⟨h1, h2⟩ := Prod.mk.inj he
        subst h1; subst h2
        simp [lookup]
      · have hl := ih hr he
        have hne : n ≠ name := by
          intro h; subst h; rw [hnone] at hl; cases hl
        simp only [lookup, if_neg hne]
        exact hl

mutual
/-- In a well-formed directory, the digest that `writeTree` returns is the
digest of the directory's tree. -/
theorem writeTreeIn_digest (cd : Codec) : ∀ (node : Node) (sha : Str) (cwd1 : Dir),
    node.wellFormed = true → writeTreeIn cd node = .ok (sha, cwd1) →
    sha = objectDigest cd node
  | .file _, _, _, _, h => by
    rw [writeTreeIn] at h; cases h
  | .dir entries, sha, cwd1, hwf, h => by
    rw [Node.wellFormed] at hwf
    rw [writeTreeIn] at h
    cases hl : writeTreeLoop cd entries entries [] with
    | error e => rw [hl] at h; cases h
    | ok r =>
      obtain ⟨content, c1⟩ := r
      rw [hl] at h
      dsimp only at h
      have hc := writeTreeLoop_text cd entries entries [] content c1 hwf
        (fun name bytes hm hg => lookup_of_mem hg hwf hm) hl
      rw [List.nil_append] at hc
      cases hw : writeObject cd c1 "tree" content with
      | error e => rw [hw] at h; cases h
      | ok c2 =>
        rw [hw] at h
        have h1 : cd.calculateSHA1
            (("tree " : Str) ++ to_string content.length ++ cstr "\x00" ++ content) = sha :=
          (Prod.mk.inj (Except.ok.inj h)).1
        rw [← h1, tree_header_eq, hc, objectDigest]
/-- In a well-formed directory, the loop of `writeTree` appends the
`treeText` of the entries that are left, as long as the files among them are
still in the current directory. -/
theorem writeTreeLoop_text (cd : Codec) : ∀ (entries cwd : Dir) (acc content : Str)
    (cwd1 : Dir), wellFormedEntries entries = true →
    (∀ name bytes, (name, Node.file bytes) ∈ entries → name ≠ GIT_DIR →
      lookup name cwd = some (.file bytes)) →
    writeTreeLoop cd entries cwd acc = .ok (content, cwd1) →
    content = acc ++ treeText cd entries
  | [], cwd, acc, content, cwd1, _, _, h => by
    rw [writeTreeLoop] at h
    rw [treeText, List.append_nil]
    exact (Prod.mk.inj (Except.ok.inj h)).1.symm
  | (name, node) :: rest, cwd, acc, content, cwd1, hwf, hinv, h => by
    rw [writeTreeLoop] at h
    rw [treeText]
    by_cases hg : name = GIT_DIR
    · rw [if_pos hg] at h
      rw [if_pos hg]
      subst hg
      exact writeTreeLoop_text cd rest cwd acc content cwd1 (wellFormedEntries_git hwf)
        (fun n b hm hn => hinv n b (List.mem_cons_of_mem _ hm) hn) h
    · rw [if_neg hg] at h
      rw [if_neg hg]
      obtain ⟨hlegal, hnone, hnode, hrest⟩ := wellFormedEntries_cons hg hwf
      have hother : ∀ n b, (n, Node.file b) ∈ rest → n ≠ GIT_DIR → name ≠ n := by
        intro n b hm hn hEq
        subst hEq
        have := lookup_of_mem hn hrest hm
        rw [hnone] at this
        cases this
      by_cases hd : node.isDirectory = true
      · rw [if_pos hd] at h
        cases hw : writeTreeIn cd node with
        | error e => rw [hw] at h; cases h
        | ok r =>
          obtain ⟨subtree_sha, sub1⟩ := r
          rw [hw] at h
          dsimp only at h
          have hs := writeTreeIn_digest cd node subtree_sha sub1 hnode hw
          have hc := writeTreeLoop_text cd rest _ _ content cwd1 hrest
            (fun n b hm hn => by
              rw [lookup_setEntry_ne _ _ (hother n b hm hn)]
              exact hinv n b (List.mem_cons_of_mem _ hm) hn) h
          rw [hc, hs]
          simp [entryLine, hd]
      · rw [if_neg hd] at h
        cases hw : hashObject cd cwd (("./" : Str) ++ name) true with
        | error e => rw [hw] at h; cases h
        | ok r =>
          obtain ⟨sha, cwd2⟩ := r
          rw [hw] at h
          dsimp only at h
          obtain ⟨bytes, hb⟩ : ∃ bytes, node = .file bytes := by
            cases node with
            | file b => exact ⟨b, rfl⟩
            | dir es => simp [Node.isDirectory] at hd
          subst hb
          obtain ⟨hs, hkeep⟩ := hashObject_file hlegal
            (hinv name bytes (List.mem_cons_self _ _) hg) hw
          have hc := writeTreeLoop_text cd rest _ _ content cwd1 hrest
            (fun n b hm hn => by
              rw [hkeep n hn]
              exact hinv n b (List.mem_cons_of_mem _ hm) hn) h
          rw [hc, hs]
          simp [entryLine, hd, objectDigest]
end


/-- The tree text is one `entryLine` per child other than `.mygit`, in the
order of the enumeration. -/
theorem treeText_eq (cd : Codec) (entries : Dir) :
    treeText cd entries
      = ((children entries).map
          (fun child => entryLine child (objectDigest cd child.2))).flatten := by
  induction entries with
  | nil => rw [treeText]; rfl
  | cons e rest ih =>
    obtain ⟨name, node⟩ := e
    rw [treeText]
    by_cases hg : name = GIT_DIR
    · rw [if_pos hg, ih]
      simp [children, hg]
    · rw [if_neg hg, ih]
      simp [children, hg]

mutual
/-- The digest of a node's object does not depend on the `.mygit` entries. -/
theorem objectDigest_working (cd : Codec) : ∀ (node : Node),
    objectDigest cd node.working = objectDigest cd node
  | .file _ => by rw [Node.working]
  | .dir entries => by
    rw [Node.working, objectDigest, objectDigest, treeText_working cd entries]
/-- The tree text of a directory does not depend on the `.mygit` entries. -/
theorem treeText_working (cd : Codec) : ∀ (entries : Dir),
    treeText cd (workingEntries entries) = treeText cd entries
  | [] => by rw [workingEntries]
  | (name, node) :: rest => by
    rw [workingEntries, treeText]
    by_cases hg : name = GIT_DIR
    · rw [if_pos hg, if_pos hg]
      exact treeText_working cd rest
    · rw [if_neg hg, if_neg hg, treeText, if_neg hg, objectDigest_working cd node,
        treeText_working cd rest]
      cases node <;> rfl
end

/-- What `writeTree` serializes and returns in a well-formed directory. -/
theorem writeTree_text {cd : Codec} {cwd : Dir} {sha : Str}
    (hwf : wellFormedEntries cwd = true)
    (h : (writeTree cd cwd).map Prod.fst = .ok sha) :
    treeContent cd cwd = .ok (treeText cd cwd)
      ∧ sha = cd.calculateSHA1 (objectStore "tree" (treeText cd cwd)) := by
  cases hw : writeTree cd cwd with
  | error e => rw [hw] at h; cases h
  | ok r =>
    obtain ⟨s, c2⟩ := r
    rw [hw] at h
    have hs : s = sha := Except.ok.inj h
    subst hs
    unfold writeTree at hw
    have hd := writeTreeIn_digest cd (.dir cwd) s c2 (by rw [Node.wellFormed]; exact hwf) hw
    rw [objectDigest] at hd
    refine ⟨?_, hd⟩
    rw [writeTreeIn] at hw
    unfold treeContent
    cases hl : writeTreeLoop cd cwd cwd [] with
    | error e => rw [hl] at hw; cases hw
    | ok r =>
      obtain ⟨content, c1⟩ := r
      have hc := writeTreeLoop_text cd cwd cwd [] content c1 hwf
        (fun name bytes hm hg => lookup_of_mem hg hwf hm) hl
      rw [List.nil_append] at hc
      rw [hc]


theorem getlines_nil : getlines [] = [] := by decide

/-- `getline` reads a line that ends with a newline, and goes on after it. -/
theorem getlines_append_line {l : Str} (rest : Str) (h : '\n' ∉ l) :
    getlines (l ++ '\n' :: rest) = l :: getlines rest := by
  unfold getlines List.splitOn
  rw [List.splitOnP_first (fun c => c == '\n') l (by
    intro x hx hc
    have : x = '\n' := by simpa using hc
    exact h (this ▸ hx)) '\n' (by decide) rest]
  have hne := List.splitOnP_ne_nil (fun c => c == '\n') rest
  cases hp : List.splitOnP (fun c => c == '\n') rest with
  | nil => exact absurd hp hne
  | cons p ps =>
    simp only [List.getLast?_cons_cons, List.dropLast_cons₂]
    split_ifs <;> rfl

/-- The lines of a text made of newline-free pieces, each followed by a
newline, are the pieces. -/
theorem getlines_flatten (bodies : List Str) (h : ∀ b ∈ bodies, '\n' ∉ b) :
    getlines ((bodies.map (fun b => b ++ ("\n" : Str))).flatten) = bodies := by
  induction bodies with
  | nil => exact getlines_nil
  | cons b rest ih =>
    have e : (((b :: rest).map (fun b => b ++ ("\n" : Str))).flatten)
        = b ++ '\n' :: ((rest.map (fun b => b ++ ("\n" : Str))).flatten) := by
      simp
    rw [e, getlines_append_line _ (h b (List.mem_cons_self _ _)),
      ih (fun x hx => h x (List.mem_cons_of_mem _ hx))]


theorem entryLine_eq (entry : Str × Node) (sha : Str) :
    entryLine entry sha = entryText entry sha ++ ("\n" : Str) := rfl

theorem newline_not_mem_entryText {entry : Str × Node} {sha : Str}
    (hn : '\n' ∉ entry.1) (hs : '\n' ∉ sha) : '\n' ∉ entryText entry sha := by
  unfold entryText
  intro hm
  rcases List.mem_append.mp hm with h | h
  · rcases List.mem_append.mp h with h | h
    · rcases List.mem_append.mp h with h | h
      · split at h
        · exact absurd h (by decide)
        · exact absurd h (by decide)
      · exact hn h
    · exact absurd h (by decide)
  · exact hs h

/-- C5, amended: in a well-formed directory (legal, distinct names), whenever
`writeTree` returns a digest, the tree content it serialized is, for each
child other than `.mygit` and in the order in which the directory is
enumerated (no sorting), the child's mode, its name, the digest of the child's
blob or tree, and a newline; the returned digest is the hash of the `store`
string of that content. When no name and no digest holds a newline, the lines
of the content are exactly these, one per child. And a well-formed directory
with the same contents in the same order, whatever its `.mygit` entries hold,
gets the same tree content and the same digest. -/
theorem tree_entries_in_enumeration_order (cd : Codec) (cwd : Dir) (sha : Str)
    (hwf : wellFormedEntries cwd = true)
    (h : (writeTree cd cwd).map Prod.fst = .ok sha) :
    treeContent cd cwd
        = .ok ((children cwd).map
            (fun child => entryLine child (objectDigest cd child.2))).flatten
      ∧ sha = cd.calculateSHA1 (objectStore "tree"
          ((children cwd).map (fun child => entryLine child (objectDigest cd child.2))).flatten)
      ∧ ((∀ child ∈ children cwd, '\n' ∉ child.1 ∧ '\n' ∉ objectDigest cd child.2) →
          (treeContent cd cwd).map getlines
            = .ok ((children cwd).map
                (fun child => entryText child (objectDigest cd child.2))))
      ∧ ∀ (other : Dir) (sha1 : Str), wellFormedEntries other = true →
          (writeTree cd other).map Prod.fst = .ok sha1 →
          workingEntries other = workingEntries cwd →
          treeContent cd other = treeContent cd cwd ∧ sha1 = sha := by
  obtain ⟨hc, hs⟩ := writeTree_text hwf h
  have ht := treeText_eq cd cwd
  refine ⟨by rw [hc, ht], by rw [hs, ht], ?_, ?_⟩
  · intro hnl
    rw [hc, ht]
    have e : (children cwd).map (fun child => entryLine child (objectDigest cd child.2))
        = ((children cwd).map (fun child => entryText child (objectDigest cd child.2))).map
            (fun b => b ++ ("\n" : Str)) := by
      rw [List.map_map]; rfl
    rw [e]
    show Except.ok (getlines _) = _
    rw [getlines_flatten]
    intro b hb
    obtain ⟨child, hch, rfl⟩ := List.mem_map.mp hb
    exact newline_not_mem_entryText (hnl child hch).1 (hnl child hch).2
  · intro other sha1 hwf1 h1 hsame
    obtain ⟨hc1, hs1⟩ := writeTree_text hwf1 h1
    have hEq : treeText cd other = treeText cd cwd := by
      rw [← treeText_working cd other, ← treeText_working cd cwd, hsame]
    exact ⟨by rw [hc1, hc, hEq], by rw [hs1, hs, hEq]⟩

/-- C5, amended, evaluated with the stand-in codec on the directory enumerated
as `b.txt`, `a.txt`: the two lines of the tree content, in that order; and the
same directory with another object store gets the same content and digest. -/
theorem tree_entries_in_enumeration_order_witness :
    treeContent toyCodec (dirBA ++ emptyRepo)
        = .ok ((children (dirBA ++ emptyRepo)).map
            (fun child => entryLine child (objectDigest toyCodec child.2))).flatten
      ∧ (treeContent toyCodec (dirBA ++ emptyRepo)).map getlines
        = .ok ["100644 b.txt 935b41929a2d1472a44789991c62f9a92cb094d9",
               "100644 a.txt 935b41929a2d1472a4478998c411057be01b15ac"]
      ∧ treeContent toyCodec (dirBA ++ helloRepo) = treeContent toyCodec (dirBA ++ emptyRepo)
      ∧ (writeTree toyCodec (dirBA ++ helloRepo)).map Prod.fst
        = .ok "e5bce53e2fe902fff349deb494a451dad06a1ec8" :=
  have h := tree_entries_in_enumeration_order toyCodec (dirBA ++ emptyRepo)
    "e5bce53e2fe902fff349deb494a451dad06a1ec8" (by decide!) (by decide!)
  ⟨h.1, (h.2.2.1 (by decide!)).trans (by decide!),
    (h.2.2.2 (dirBA ++ helloRepo) "e5bce53e2fe902fff349deb494a451dad06a1ec8" (by decide!)
      (by decide!) (by decide!)).1, by decide!⟩

/-! ## C6: tree codec round trip -/

/-- C6, evaluated with the stand-in codec on a directory that holds the one
file `my file`: in the tree that `writeTree` wrote, the parser of
`restoreTree` finds one entry with the name `my` and the digest `file`, and
`lsTree --name-only` prints `my`: the name is cut at its space and the digest
is lost. -/
theorem tree_parser_cuts_name_at_space :
    treeRoundTrip toyCodec [("my file", .file "x")]
      = .ok ⟨[("100644", "my", "file")], .ok ["my\n"]⟩ := by
  decide!

/-! ## C7: the parent of a commit -/

/-- C7, evaluated with the stand-in codec: `init`, a first commit `c1`,
`checkout` of `c1` (which ends normally), then a second commit. Before the
second commit the branch slot `refs/heads/master` holds `c1`; the commit that
is stored has no `parent` line; and the branch slot is overwritten with the
digest of that parentless commit. -/
theorem commit_after_checkout_has_no_parent :
    detachedRun toyCodec
      = .ok ⟨"58e6a782ccaa659524ef45b128d19c8d453bfd48", .ok (),
          "58e6a782ccaa659524ef45b128d19c8d453bfd48",
          "6d6113c39316de625a66940afa1f87c592dc85a4",
          .ok ("commit", commitContent "f496c0d5633a489af59d6cc1060c4b8410cc4426" []
            1700000060 "second"),
          "6d6113c39316de625a66940afa1f87c592dc85a4"⟩ := by
  decide!

/-! ## C8: corrupt objects -/

theorem find_succ_mod_le (s : Str) (c : Char) : (find s c + 1) % 2 ^ 64 ≤ s.length := by
  unfold find
  split
  · exact le_trans (Nat.mod_le _ _) (by omega)
  · simp [npos]

/-- What `splitObject` computes: the only `substr` that can throw is the last. -/
theorem splitObject_eq (d : Str) :
    splitObject d =
      (let null_pos := find d '\x00'
       let header := if null_pos = npos then d else d.take null_pos
       let content := d.drop ((null_pos + 1) % 2 ^ 64)
       let space_pos := find header ' '
       let k := (space_pos + 1 + (to_string content.length).length) % 2 ^ 64
       if content.length < k then .error .outOfRange
       else .ok (if space_pos = npos then header else header.take space_pos,
         content.drop k)) := by
  have h1 : ¬ d.length < (find d '\x00' + 1) % 2 ^ 64 :=
    Nat.not_lt.mpr (find_succ_mod_le d _)
  unfold splitObject substrFrom substr
  simp only [Nat.not_lt_zero, if_false, if_true, h1, List.drop_zero]
  by_cases hk : (List.drop ((find d '\x00' + 1) % 2 ^ 64) d).length <
      (find (if find d '\x00' = npos then d else List.take (find d '\x00') d) ' ' + 1 +
        List.length (to_string (List.drop ((find d '\x00' + 1) % 2 ^ 64) d).length)) % 2 ^ 64
  · rw [if_pos hk, if_pos hk]
  · rw [if_neg hk, if_neg hk]

/-- C9: `checkout` starts with `readObject` on the digest. When the object is
read back with a kind other than `commit`, `checkout` fails with "Not a commit
object"; when `readObject` fails, `checkout` fails in the same way, and in
particular with "Object not found" when nothing exists at the object's path.
In each case the current directory, which holds the working files, `HEAD`, the
branch slot and the object store, is exactly as it was. -/
theorem checkout_rejects_non_commit (cd : Codec) (executable_name : Str) (fuel : Nat)
    (cwd : Dir) (sha : Str) :
    (∀ type content, readObject cd cwd sha = .ok (type, content) → type ≠ ("commit" : Str) →
        checkout cd executable_name fuel cwd sha = (.error .notACommit, cwd))
      ∧ (∀ e, readObject cd cwd sha = .error e →
        checkout cd executable_name fuel cwd sha = (.error e, cwd))
      ∧ (∀ path, objectPath sha = .ok path → pathExists cwd path = false →
        checkout cd executable_name fuel cwd sha = (.error (.objectNotFound sha), cwd)) := by
  refine ⟨?_, ?_, ?_⟩
  · intro type content h hne
    unfold checkout
    rw [h]
    dsimp only
    rw [if_pos hne]
  · intro e h
    unfold checkout
    rw [h]
  · intro path hp hf
    have hn : readFile cwd path = none := by
      unfold pathExists at hf
      unfold readFile
      cases hr : resolve cwd (components path) with
      | none => rfl
      | some x => rw [hr] at hf; cases hf
    have h : readObject cd cwd sha = .error (.objectNotFound sha) := by
      unfold readObject
      rw [hp]
      dsimp only
      rw [hn]
    unfold checkout
    rw [h]

/-- C9, evaluated with the stand-in codec in a repository whose only object,
`abcdef`, is a blob: `checkout` of `abcdef` fails with "Not a commit object",
`checkout` of a digest that is not stored fails with "Object not found", and
the directory is unchanged. -/
theorem checkout_rejects_non_commit_witness :
    checkout toyCodec "mygit" 8 (repoWithObject "blob 6hello\n") "abcdef"
        = (.error .notACommit, repoWithObject "blob 6hello\n")
      ∧ checkout toyCodec "mygit" 8 (repoWithObject "blob 6hello\n")
          "d7436a0fcec01bd8663d275c7fe9928cb0a49a87"
        = (.error (.objectNotFound "d7436a0fcec01bd8663d275c7fe9928cb0a49a87"),
            repoWithObject "blob 6hello\n") :=
  ⟨(checkout_rejects_non_commit toyCodec "mygit" 8 (repoWithObject "blob 6hello\n")
      "abcdef").1 "blob" "ello\n" (by decide!) (by decide),
   (checkout_rejects_non_commit toyCodec "mygit" 8 (repoWithObject "blob 6hello\n")
      "d7436a0fcec01bd8663d275c7fe9928cb0a49a87").2.2
      ".mygit/objects/d7/436a0fcec01bd8663d275c7fe9928cb0a49a87" (by decide!) (by decide!)⟩

/-! ## C10: snapshot closure -/

/-- C10, evaluated with the stand-in codec on a directory that holds the one
subdirectory `sub` with the file `sub/b.txt`: after `init` and `writeTree`, the
root tree is read back from the root, but `readObject`, run in the root, does
not find the subtree digest recorded in it; the subtree object is in the
object store that `writeTree` created inside `sub`, where `readObject` reads it
back. -/
theorem subtree_is_not_in_the_root_store :
    closureRun toyCodec [("sub", .dir [("b.txt", .file "b\n")])] "sub"
      = .ok ⟨.ok ("tree", "40000 sub 2b850f5466a98a36dc412e508523bc2f248e3d69\n"),
          [.error (.objectNotFound "2b850f5466a98a36dc412e508523bc2f248e3d69")],
          .ok ("tree", "100644 b.txt 935b41929a2d1472a44789991c62f9a92cb094d9\n")⟩ := by
  decide!

/-! ## Decimal digits -/

/-- With enough fuel, `Nat.toDigitsCore` puts the decimal digits of a positive
number, most significant first, in front of the accumulator. -/
theorem toDigitsCore_eq_digits (fuel : Nat) :
    ∀ (n : Nat) (acc : List Char), 0 < n → n < fuel →
      Nat.toDigitsCore 10 fuel n acc
        = (Nat.digits 10 n).reverse.map Nat.digitChar ++ acc := by
  induction fuel with
  | zero => intro n acc _ h; exact absurd h (Nat.not_lt_zero _)
  | succ fuel ih =>
    intro n acc hpos hlt
    have hd := Nat.digits_def' (by decide : 1 < 10) hpos
    rw [Nat.toDigitsCore]
    by_cases h0 : n / 10 = 0
    · simp [h0, hd]
    · have hlt1 : n / 10 < fuel := by omega
      simp only [h0, if_false]
      rw [ih (n / 10) _ (Nat.pos_of_ne_zero h0) hlt1, hd]
      simp

/-- The decimal rendering of a number: `0` for zero, and otherwise its decimal
digits, most significant first. -/
theorem to_string_eq (n : Nat) :
    to_string n = if n = 0 then ['0']
      else (Nat.digits 10 n).reverse.map Nat.digitChar := by
  unfold to_string Nat.toDigits
  by_cases h : n = 0
  · subst h; rfl
  · rw [if_neg h, toDigitsCore_eq_digits _ _ _ (Nat.pos_of_ne_zero h) (Nat.lt_succ_self n)]
    simp

theorem to_string_length_pos (n : Nat) : 1 ≤ (to_string n).length := by
  rw [to_string_eq]
  by_cases h : n = 0
  · simp [h]
  · rw [if_neg h]
    have : Nat.digits 10 n ≠ [] := Nat.digits_ne_nil_iff_ne_zero.mpr h
    simp only [List.length_map, List.length_reverse]
    exact List.length_pos.mpr this

/-- A number is below ten to the power of its number of decimal digits. -/
theorem lt_pow_to_string_length (n : Nat) : n < 10 ^ (to_string n).length := by
  rw [to_string_eq]
  by_cases h : n = 0
  · simp [h]
  · rw [if_neg h]
    simpa using Nat.lt_base_pow_length_digits (by decide : 1 < 10)

/-- The number of decimal digits is monotone. -/
theorem to_string_length_mono {n m : Nat} (h : n ≤ m) :
    (to_string n).length ≤ (to_string m).length := by
  by_cases hn : n = 0
  · subst hn
    have : (to_string 0).length = 1 := by decide
    rw [this]
    exact to_string_length_pos m
  · have hm : m ≠ 0 := by omega
    rw [to_string_eq, to_string_eq, if_neg hn, if_neg hm]
    simpa using Nat.le_digits_len_le 10 n m h

/-- A number below `10 ^ e`, with `e` positive, has at most `e` decimal digits. -/
theorem to_string_length_le {n e : Nat} (he : 0 < e) (h : n < 10 ^ e) :
    (to_string n).length ≤ e := by
  have := Nat.repr_length n e he h
  simpa [Nat.repr, to_string] using this

theorem digitChar_ne_nul {k : Nat} (h : k < 10) : Nat.digitChar k ≠ '\x00' := by
  interval_cases k <;> decide

theorem nul_not_mem_to_string (n : Nat) : '\x00' ∉ to_string n := by
  rw [to_string_eq]
  by_cases h : n = 0
  · rw [if_pos h]; decide
  · rw [if_neg h]
    intro hm
    obtain ⟨k, hk, hk1⟩ := List.mem_map.mp hm
    exact digitChar_ne_nul (Nat.digits_lt_base (by decide) (List.mem_reverse.mp hk)) hk1


/-! ## C12: the hashed string determines the object -/

theorem objectStore_eq (type content : Str) :
    objectStore type content = type ++ ' ' :: (to_string content.length ++ content) := by
  have hc : cstr ['\x00'] = [] := by decide
  simp [objectStore, hc]

/-- Two strings that agree, each being a part free of `x`, then `x`, then a
rest, agree part by part. -/
theorem append_cons_inj {x : Char} : ∀ (a b r s : Str), x ∉ a → x ∉ b →
    a ++ x :: r = b ++ x :: s → a = b ∧ r = s := by
  intro a
  induction a with
  | nil =>
    intro b r s _ hb h
    cases b with
    | nil => exact ⟨rfl, (List.cons.inj h).2⟩
    | cons y b =>
      have := (List.cons.inj h).1
      exact absurd (this ▸ List.mem_cons_self _ _) hb
  | cons y a ih =>
    intro b r s ha hb h
    cases b with
    | nil =>
      have := (List.cons.inj h).1
      exact absurd (this ▸ List.mem_cons_self _ _) ha
    | cons z b =>
      obtain ⟨hyz, ht⟩ := List.cons.inj h
      obtain ⟨hab, hrs⟩ := ih b r s (fun hm => ha (List.mem_cons_of_mem _ hm))
        (fun hm => hb (List.mem_cons_of_mem _ hm)) ht
      exact ⟨by rw [hyz, hab], hrs⟩

/-- The decimal length followed by the content determines the content. -/
theorem length_prefixed_inj {c1 c2 : Str}
    (h : to_string c1.length ++ c1 = to_string c2.length ++ c2) : c1 = c2 := by
  have hl := congrArg List.length h
  simp only [List.length_append] at hl
  have hn : c1.length = c2.length := by
    rcases Nat.lt_trichotomy c1.length c2.length with hlt | heq | hgt
    · have := to_string_length_mono (Nat.le_of_lt hlt); omega
    · exact heq
    · have := to_string_length_mono (Nat.le_of_lt hgt); omega
  rw [hn] at h
  exact List.append_cancel_left h

/-- C12: for kinds without a space, the string that `writeObject` builds and
hashes for `(k1, c1)`, which is `k1`, a space, the decimal length of `c1` and
`c1`, equals the one for `(k2, c2)` only if `k1 = k2` and `c1 = c2`; so when
two different objects get the same digest, the hash function takes the same
value on two different strings. -/
theorem objectStore_injective (k1 k2 c1 c2 : Str) (h1 : ' ' ∉ k1) (h2 : ' ' ∉ k2) :
    objectStore k1 c1 = k1 ++ " " ++ to_string c1.length ++ c1
      ∧ (objectStore k1 c1 = objectStore k2 c2 → k1 = k2 ∧ c1 = c2)
      ∧ ∀ cd : Codec, (k1, c1) ≠ (k2, c2) →
          cd.calculateSHA1 (objectStore k1 c1) = cd.calculateSHA1 (objectStore k2 c2) →
          objectStore k1 c1 ≠ objectStore k2 c2
            ∧ ¬ Function.Injective cd.calculateSHA1 := by
  have inj : objectStore k1 c1 = objectStore k2 c2 → k1 = k2 ∧ c1 = c2 := by
    intro h
    rw [objectStore_eq, objectStore_eq] at h
    obtain ⟨hk, hr⟩ := append_cons_inj _ _ _ _ h1 h2 h
    exact ⟨hk, length_prefixed_inj hr⟩
  refine ⟨by rw [objectStore_eq]; simp, inj, ?_⟩
  intro cd hne hsha
  have hs : objectStore k1 c1 ≠ objectStore k2 c2 := by
    intro h
    obtain ⟨hk, hc⟩ := inj h
    exact hne (by rw [hk, hc])
  exact ⟨hs, fun hinj => hs (hinj hsha)⟩

/-- C12, at the kinds `blob` and `tree` and the contents `12345678901` and
`2345678901`: the contents differ and so do the two strings, `blob 1112345678901`
and `tree 102345678901`. -/
theorem objectStore_injective_witness :
    objectStore "blob" "12345678901"
        = ("blob" : Str) ++ " " ++ to_string ("12345678901" : Str).length ++ "12345678901"
      ∧ (objectStore "blob" "12345678901" = objectStore "tree" "2345678901" →
        ("blob" : Str) = "tree" ∧ ("12345678901" : Str) = "2345678901")
      ∧ ∀ cd : Codec, (("blob" : Str), ("12345678901" : Str)) ≠ ("tree", "2345678901") →
          cd.calculateSHA1 (objectStore "blob" "12345678901")
            = cd.calculateSHA1 (objectStore "tree" "2345678901") →
          objectStore "blob" "12345678901" ≠ objectStore "tree" "2345678901"
            ∧ ¬ Function.Injective cd.calculateSHA1 :=
  objectStore_injective "blob" "tree" "12345678901" "2345678901" (by decide) (by decide)


/-! ## C11: what `readObject` returns for a written object -/

theorem find_of_not_mem {s : Str} {c : Char} (h : c ∉ s) : find s c = npos := by
  unfold find
  rw [List.indexOf_of_not_mem h, if_neg (Nat.lt_irrefl _)]

theorem find_append_cons {a : Str} {c : Char} (r : Str) (h : c ∉ a) :
    find (a ++ c :: r) c = a.length := by
  unfold find
  rw [List.indexOf_append_of_not_mem h, List.indexOf_cons_self, Nat.add_zero, if_pos]
  simp

/-- The length of the stored string exceeds the length of the content by at
most one decimal digit, and by none when the content is empty. -/
theorem stored_length_digits {kind c : Str} (hk : kind.length ≤ 6) :
    (to_string c.length).length ≤ (to_string (objectStore kind c).length).length
      ∧ (to_string (objectStore kind c).length).length ≤ (to_string c.length).length + 1
      ∧ (to_string (objectStore kind c).length).length ≤ (to_string c.length).length + c.length := by
  have hT : (objectStore kind c).length
      = kind.length + 1 + (to_string c.length).length + c.length := by
    rw [objectStore_eq]; simp; omega
  have hlow : (to_string c.length).length ≤ (to_string (objectStore kind c).length).length :=
    to_string_length_mono (by omega)
  have hP := lt_pow_to_string_length c.length
  have hd : (to_string c.length).length < 10 ^ (to_string c.length).length :=
    Nat.lt_pow_self (by decide) _
  have hup : (to_string (objectStore kind c).length).length ≤ (to_string c.length).length + 1 := by
    apply to_string_length_le (Nat.succ_pos _)
    rw [pow_succ]
    omega
  refine ⟨hlow, hup, ?_⟩
  by_cases h0 : c.length = 0
  · have h1 : (to_string c.length).length = 1 := by rw [h0]; decide
    have : (to_string (objectStore kind c).length).length ≤ 1 := by
      apply to_string_length_le (by decide)
      omega
    omega
  · omega

/-- What `splitObject` returns on the stored string of `(kind, c)`, for a kind
of at most 6 characters without space or NUL and a content without NUL, when
the stored string is shorter than `2 ^ 64`. -/
theorem splitObject_objectStore {kind c : Str} (hk : kind.length ≤ 6)
    (hsp : ' ' ∉ kind) (hkn : '\x00' ∉ kind) (hnul : '\x00' ∉ c)
    (hsize : (objectStore kind c).length < 2 ^ 64) :
    splitObject (objectStore kind c)
      = .ok (kind, c.drop ((to_string (objectStore kind c).length).length
          - (to_string c.length).length)) := by
  obtain ⟨hlow, hup, hle⟩ := stored_length_digits (c := c) hk
  have hS := objectStore_eq kind c
  have hT : (objectStore kind c).length
      = kind.length + 1 + (to_string c.length).length + c.length := by
    rw [hS]; simp; omega
  have hnS : '\x00' ∉ objectStore kind c := by
    rw [hS]
    intro hm
    rcases List.mem_append.mp hm with h | h
    · exact hkn h
    · rcases List.mem_cons.mp h with h | h
      · exact absurd h (by decide)
      · rcases List.mem_append.mp h with h | h
        · exact nul_not_mem_to_string _ h
        · exact hnul h
  have hfn : find (objectStore kind c) '\x00' = npos := find_of_not_mem hnS
  have hfs : find (objectStore kind c) ' ' = kind.length := by
    rw [hS]; exact find_append_cons _ hsp
  have hd20 : (to_string (objectStore kind c).length).length ≤ 20 := by
    apply to_string_length_le (by decide)
    exact lt_of_lt_of_le hsize (by norm_num)
  have hmod0 : (npos + 1) % 2 ^ 64 = 0 := by decide
  have hkmod : (kind.length + 1 + (to_string (objectStore kind c).length).length) % 2 ^ 64
      = kind.length + 1 + (to_string (objectStore kind c).length).length :=
    Nat.mod_eq_of_lt (by omega)
  have hkn' : kind.length ≠ npos := by
    intro h; rw [h] at hk; exact absurd hk (by decide)
  rw [splitObject_eq]
  simp only [hfn, if_true, hmod0, List.drop_zero, hfs, hkmod, if_neg hkn']
  rw [if_neg (by omega)]
  congr 2
  · rw [hS]; exact List.take_left _ _
  · have e : objectStore kind c
        = (kind ++ [' '] ++ to_string c.length) ++ c := by rw [hS]; simp
    have e2 : kind.length + 1 + (to_string (objectStore kind c).length).length
        = (kind ++ [' '] ++ to_string c.length).length
          + ((to_string (objectStore kind c).length).length - (to_string c.length).length) := by
      simp; omega
    rw [e2]
    conv_lhs => rw [e]
    rw [List.drop_append]
    rw [← e]


/-- C11: for a kind among `blob`, `tree` and `commit` and a content `c` without
NUL byte, let `n` be the length of `c` and `T` the length of the stored
string, at most `2 ^ 64 - 1`; `T` is the length of the kind, plus one, plus
the number of decimal digits of `n`, plus `n`. When decompression inverts
compression on the stored string, the digest is well formed, no directory
sits at the object's path and `writeObject(kind, c)` has succeeded,
`readObject` on the digest does not throw: it returns the kind unchanged, and
`c` without its first `digits(T) - digits(n)` bytes, which are 0 or 1 bytes.
It returns `c` itself if and only if `T` and `n` have the same number of
decimal digits. -/
theorem readObject_after_writeObject (cd : Codec) (cwd cwd1 : Dir) (kind c : Str)
    (hkind : kind = ("blob" : Str) ∨ kind = ("tree" : Str) ∨ kind = ("commit" : Str))
    (hnul : '\x00' ∉ c)
    (hsize : (objectStore kind c).length < 2 ^ 64)
    (hinv : cd.decompressData (cd.compressData (objectStore kind c)) = objectStore kind c)
    (hsha : WellFormedDigest (cd.calculateSHA1 (objectStore kind c)))
    (hfree : (objectPath (cd.calculateSHA1 (objectStore kind c))).map
      (is_directory cwd) = .ok false)
    (hw : writeObject cd cwd kind c = .ok cwd1) :
    (objectStore kind c).length
        = kind.length + 1 + (to_string c.length).length + c.length
      ∧ readObject cd cwd1 (cd.calculateSHA1 (objectStore kind c))
        = .ok (kind, c.drop ((to_string (objectStore kind c).length).length
            - (to_string c.length).length))
      ∧ (to_string (objectStore kind c).length).length - (to_string c.length).length ≤ 1
      ∧ (readObject cd cwd1 (cd.calculateSHA1 (objectStore kind c)) = .ok (kind, c)
          ↔ (to_string (objectStore kind c).length).length = (to_string c.length).length) := by
  have hk : kind.length ≤ 6 ∧ ' ' ∉ kind ∧ '\x00' ∉ kind := by
    rcases hkind with h | h | h <;> subst h <;> decide
  obtain ⟨hk6, hsp, hkn⟩ := hk
  obtain ⟨hlow, hup, hle⟩ := stored_length_digits (c := c) hk6
  have hT : (objectStore kind c).length
      = kind.length + 1 + (to_string c.length).length + c.length := by
    rw [objectStore_eq]; simp; omega
  have hr : readObject cd cwd1 (cd.calculateSHA1 (objectStore kind c))
      = .ok (kind, c.drop ((to_string (objectStore kind c).length).length
          - (to_string c.length).length)) := by
    rw [readObject_writeObject hsha hfree hw, hinv]
    exact splitObject_objectStore hk6 hsp hkn hnul hsize
  refine ⟨hT, hr, by omega, ?_⟩
  rw [hr]
  constructor
  · intro h
    have hc : c.drop ((to_string (objectStore kind c).length).length
        - (to_string c.length).length) = c := (Prod.mk.inj (Except.ok.inj h)).2
    have hl := congrArg List.length hc
    rw [List.length_drop] at hl
    omega
  · intro h
    rw [h, Nat.sub_self, List.drop_zero]

/-- C11, evaluated with the stand-in codec in a fresh repository: for the blob
of `hello\n` (6 bytes, stored in 12) `readObject` returns `ello\n`, and for the
blob of `hi\n` (3 bytes, stored in 9) it returns `hi\n`. -/
theorem readObject_after_writeObject_witness :
    readObject toyCodec helloRepo (toyCodec.calculateSHA1 (objectStore "blob" "hello\n"))
        = .ok ("blob", "ello\n")
      ∧ readObject toyCodec hiRepo (toyCodec.calculateSHA1 (objectStore "blob" "hi\n"))
        = .ok ("blob", "hi\n") :=
  ⟨(readObject_after_writeObject toyCodec emptyRepo helloRepo "blob" "hello\n"
      (Or.inl rfl) (by decide) (by decide!) (by decide!) (by decide!) (by decide!)
      (by decide!)).2.1.trans (by decide!),
   (readObject_after_writeObject toyCodec emptyRepo hiRepo "blob" "hi\n"
      (Or.inl rfl) (by decide) (by decide!) (by decide!) (by decide!) (by decide!)
      (by decide!)).2.1.trans (by decide!)⟩

/-! ## C8, amended: no validation in `readObject` -/

end MiniVCS
